import Mathlib

/-!
Verification of the TSP solver core (`src/tsp-solver.ts`).

The solver is embedded shallowly:
* `City`, `euclidDist`, `calculateDistanceMatrix` model the constructor's
  distance-matrix computation over idealized real arithmetic;
* the route algorithms (`calculateRouteDistance`, `nearestNeighbor`,
  `twoOptImprovement`, `dynamicProgramming`, `solve`) are written generically
  over a distance table `d : Nat → Nat → α` for a linear ordered field `α`,
  mirroring the JavaScript loops (imperative loops become folds, the
  `while` loops become fuel-bounded recursions whose fuel provably suffices,
  JavaScript `Infinity` becomes `⊤ : WithTop α` or an `Option` accumulator,
  and the `throw` in `dynamicProgramming` becomes an `Option` result).

Definitions come first, then the theorems about them.
-/

set_option maxHeartbeats 1000000

namespace TSP

/-- A city: a pair of coordinates, as in the source `City` interface
(the optional `id` field is never read by the algorithms and is omitted). -/
structure City where
  x : ℝ
  y : ℝ

instance : Inhabited City := ⟨⟨0, 0⟩⟩

/-- Euclidean distance `Math.sqrt(dx*dx + dy*dy)` between two cities. -/
noncomputable def euclidDist (a b : City) : ℝ :=
  Real.sqrt ((a.x - b.x) * (a.x - b.x) + (a.y - b.y) * (a.y - b.y))

/-- The distance matrix built by `calculateDistanceMatrix`: zero on the
diagonal, Euclidean distance off it.  Out-of-range indices (which the
source would turn into `undefined`) read the default city; all claims
are about in-range indices. -/
noncomputable def calculateDistanceMatrix (cities : List City) : Nat → Nat → ℝ :=
  fun i j => if i = j then 0 else euclidDist (cities.getD i default) (cities.getD j default)

section GenericDefs

variable {α : Type} [LinearOrderedField α]

/-- Cost of a (non-cyclic) walk: sum of `d` over consecutive pairs. -/
def pathCost (d : Nat → Nat → α) : List Nat → α
  | [] => 0
  | [_] => 0
  | a :: b :: t => d a b + pathCost d (b :: t)

/-- `calculateRouteDistance`: the source loop
`for i in [0, route.length): total += d[route[i]][route[(i+1) % route.length]]`. -/
def calculateRouteDistance (d : Nat → Nat → α) (route : List Nat) : α :=
  ((List.range route.length).map
    (fun i => d (route.getD i 0) (route.getD ((i + 1) % route.length) 0))).sum

/-- One iteration of the `for (i in [0, n))` loop of `nearestNeighbor`
looking for the nearest unvisited city.  The accumulator `none` plays the
role of `nearestCity = -1, nearestDistance = Infinity` (any finite distance
beats `Infinity`); visited cities are exactly the entries of the partial
route. -/
def scanStep (d : Nat → Nat → α) (current : Nat) (route : List Nat)
    (acc : Option (Nat × α)) (i : Nat) : Option (Nat × α) :=
  if i ∉ route then
    match acc with
    | none => some (i, d current i)
    | some (c, best) =>
      if d current i < best then some (i, d current i) else some (c, best)
  else acc

/-- The whole nearest-unvisited-city scan. -/
def scanNearest (d : Nat → Nat → α) (n current : Nat) (route : List Nat) :
    Option (Nat × α) :=
  (List.range n).foldl (scanStep d current route) none

/-- The `while (route.length < n)` loop of `nearestNeighbor`, with fuel
`n - route.length` (the loop body always appends exactly one city).  In the
`none` case the source would push `-1`; for a starting city `< n` that case
is unreachable (proved below). -/
def nearestNeighborAux (d : Nat → Nat → α) (n : Nat) :
    Nat → Nat → List Nat → List Nat
  | 0, _, route => route
  | fuel + 1, current, route =>
    match scanNearest d n current route with
    | none => route
    | some (c, _) => nearestNeighborAux d n fuel c (route ++ [c])

/-- `nearestNeighbor(startCity)` from the source. -/
def nearestNeighbor (d : Nat → Nat → α) (n : Nat) (startCity : Nat) : List Nat :=
  nearestNeighborAux d n (n - 1) startCity [startCity]

/-- `reverseSection(route, start, end)`: the net effect of the in-place swap
loop is reversing the segment from index `start` to index `end` inclusive. -/
def reverseSection (route : List Nat) (i j : Nat) : List Nat :=
  route.take i ++ ((route.drop i).take (j + 1 - i)).reverse ++ route.drop (j + 1)

/-- The mutable locals `bestRoute`, `bestDistance`, `improved` of
`twoOptImprovement`. -/
structure TwoOptState (α : Type) where
  bestRoute : List Nat
  bestDistance : α
  improved : Bool

/-- Body of the inner double loop of `twoOptImprovement`: skip adjacent
edges, reverse the section between `i` and `j` on a fresh copy, and keep
the new route exactly when it is strictly shorter. -/
def twoOptCandidate (d : Nat → Nat → α) (s : TwoOptState α) (i j : Nat) :
    TwoOptState α :=
  if j - i = 1 then s
  else
    let newRoute := reverseSection s.bestRoute i j
    let newDistance := calculateRouteDistance d newRoute
    if newDistance < s.bestDistance then ⟨newRoute, newDistance, true⟩ else s

/-- One full pass of the double loop `for (i = 1; i < n-2)`,
`for (j = i+1; j < n)`. -/
def twoOptPass (d : Nat → Nat → α) (n : Nat) (s : TwoOptState α) : TwoOptState α :=
  (List.range' 1 (n - 3)).foldl
    (fun s i =>
      (List.range' (i + 1) (n - (i + 1))).foldl (fun s j => twoOptCandidate d s i j) s)
    s

/-- The `while (improved)` loop.  Each pass that sets `improved` strictly
decreases `bestDistance`, and all routes ever held are permutations of the
input, so at most `n! + 1` passes can run; that is the fuel used below. -/
def twoOptAux (d : Nat → Nat → α) (n : Nat) : Nat → List Nat × α → List Nat × α
  | 0, s => s
  | fuel + 1, s0 =>
    let s := twoOptPass d n ⟨s0.1, s0.2, false⟩
    if s.improved then twoOptAux d n fuel (s.bestRoute, s.bestDistance)
    else (s.bestRoute, s.bestDistance)

/-- `twoOptImprovement(route)` from the source. -/
def twoOptImprovement (d : Nat → Nat → α) (route : List Nat) : List Nat :=
  (twoOptAux d route.length (Nat.factorial route.length + 1)
    (route, calculateRouteDistance d route)).1

/-- Pointwise update of a two-argument table (the source's
`table[a][b] = x`). -/
def upd2 {β : Type} (f : Nat → Nat → β) (a b : Nat) (x : β) : Nat → Nat → β :=
  fun a' b' => if a' = a ∧ b' = b then x else f a' b'

/-- The two tables of `dynamicProgramming`: `dp` (with `⊤` for `Infinity`)
and `parent` (with `none` for `-1`). -/
structure DPState (α : Type) where
  dp : Nat → Nat → WithTop α
  parent : Nat → Nat → Option Nat

/-- Initial tables: everything `Infinity` except the base case
`dp[1][0] = 0`; all parents `-1`. -/
def dpInit : DPState α :=
  ⟨fun mask v => if mask = 1 ∧ v = 0 then ((0 : α) : WithTop α) else ⊤,
   fun _ _ => none⟩

/-- Body of the innermost `for (v)` loop of `dynamicProgramming`: relax the
edge `u → v` from state `(mask, u)` into state `(mask ||| 2^v, v)`. -/
def relaxStep (d : Nat → Nat → α) (mask u : Nat) (s : DPState α) (v : Nat) :
    DPState α :=
  if mask.testBit v then s
  else
    let newMask := mask ||| 2 ^ v
    let newDist := s.dp mask u + (d u v : WithTop α)
    if newDist < s.dp newMask v then
      ⟨upd2 s.dp newMask v newDist, upd2 s.parent newMask v (some u)⟩
    else s

/-- Body of the `for (u)` loop: skip `u` not in `mask` or with infinite
cost, otherwise relax towards every `v`. -/
def relaxFrom (d : Nat → Nat → α) (n mask : Nat) (s : DPState α) (u : Nat) :
    DPState α :=
  if ¬ mask.testBit u ∨ s.dp mask u = ⊤ then s
  else (List.range n).foldl (relaxStep d mask u) s

/-- Processing of one value of `mask` (the whole `for (u)` loop). -/
def processMask (d : Nat → Nat → α) (n : Nat) (s : DPState α) (mask : Nat) :
    DPState α :=
  (List.range n).foldl (relaxFrom d n mask) s

/-- The outer `for (mask = 1; mask < 2^n)` loop. -/
def dpLoop (d : Nat → Nat → α) (n : Nat) : DPState α :=
  (List.range' 1 (2 ^ n - 1)).foldl (processMask d n) dpInit

/-- One iteration of the `for (i = 1; i < n)` loop finding the minimum cost
of returning to the start. -/
def bestLastStep (d : Nat → Nat → α) (n : Nat) (dp : Nat → Nat → WithTop α)
    (acc : WithTop α × Option Nat) (i : Nat) : WithTop α × Option Nat :=
  let cost := dp (2 ^ n - 1) i + (d i 0 : WithTop α)
  if cost < acc.1 then (cost, some i) else acc

/-- The whole closing-cost loop, with its arg-min city (`none` for
`lastCity = -1`). -/
def bestLast (d : Nat → Nat → α) (n : Nat) (dp : Nat → Nat → WithTop α) :
    WithTop α × Option Nat :=
  (List.range' 1 (n - 1)).foldl (bestLastStep d n dp) (⊤, none)

/-- The path-reconstruction `while (curr !== -1)` loop, producing the pushed
entries in push order.  Each step clears one bit of `mask`, so `n + 1` fuel
suffices for every chain the tables can produce (proved below). -/
def reconstructAux (parent : Nat → Nat → Option Nat) :
    Nat → Option Nat → Nat → List Nat
  | 0, _, _ => []
  | _ + 1, none, _ => []
  | fuel + 1, some c, mask =>
    c :: reconstructAux parent fuel (parent mask c) (mask ^^^ 2 ^ c)

/-- `dynamicProgramming()` from the source: `none` models the thrown
`"Dynamic programming solution only works for up to 15 cities"` error. -/
def dynamicProgramming (d : Nat → Nat → α) (n : Nat) : Option (List Nat) :=
  if n > 15 then none
  else
    let s := dpLoop d n
    let bl := bestLast d n s.dp
    some ((reconstructAux s.parent (n + 1) bl.2 (2 ^ n - 1)).reverse)

/-- Number of set bits of `M` among positions `< n` (the number of cities
in the visited set `M`); the induction measure for the table analysis. -/
def bitCnt (n M : Nat) : Nat := ((Finset.range n).filter (fun i => M.testBit i)).card

/-- The Bellman value of state `(M, v)`: the least cost of a path that
starts at city 0, visits exactly the cities in the bitmask `M`, and ends at
`v`.  Defined by recursion on a fuel bounding `bitCnt n M`; this is the
mathematical value the `dp` table is proved to compute. -/
def optA (d : Nat → Nat → α) (n : Nat) : Nat → Nat → Nat → WithTop α
  | 0, _, _ => ⊤
  | fuel + 1, M, v =>
    if ¬ M.testBit v then ⊤
    else if M ^^^ 2 ^ v = 0 then (if v = 0 then ((0 : α) : WithTop α) else ⊤)
    else
      ((List.range n).filter (fun u => (M ^^^ 2 ^ v).testBit u)).foldl
        (fun acc u => min acc (optA d n fuel (M ^^^ 2 ^ v) u + (d u v : WithTop α))) ⊤

/-- `l` is a Hamiltonian path on the city set `M`: it starts at city 0 and
lists the cities of `M` (all below `n`) exactly once. -/
def isPath (n M : Nat) (l : List Nat) : Prop :=
  l ≠ [] ∧ l.headD 0 = 0 ∧ l.Nodup ∧ ∀ x, x ∈ l ↔ (x < n ∧ M.testBit x)

/-- The brute-force optimum: the minimum cyclic route distance over all
permutations of `[0, n)`. -/
def bruteMin (d : Nat → Nat → α) (n : Nat) : α :=
  ((List.range n).permutations.map (calculateRouteDistance d)).foldr min
    (calculateRouteDistance d (List.range n))

/-- Invariant of the outer mask loop of `dynamicProgramming` after the
masks `1 .. j` have been processed:
* a `dp` entry whose incoming relaxations are all done (its source mask
  `M ^^^ 2^v` lies in `[1, j]`) holds the exact Bellman value, every other
  entry is untouched;
* every recorded parent describes the (now final) relaxation that produced
  its entry;
* every finite relaxed entry has a recorded parent. -/
def DPInv (d : Nat → Nat → α) (n j : Nat) (s : DPState α) : Prop :=
  (∀ M v, M < 2 ^ n → v < n →
    (M.testBit v ∧ 1 ≤ M ^^^ 2 ^ v ∧ M ^^^ 2 ^ v ≤ j →
      s.dp M v = optA d n n M v)
    ∧ (¬ (M.testBit v ∧ 1 ≤ M ^^^ 2 ^ v ∧ M ^^^ 2 ^ v ≤ j) →
      s.dp M v = (dpInit : DPState α).dp M v))
  ∧ (∀ M v u, s.parent M v = some u →
      v < n ∧ u < n ∧ M < 2 ^ n ∧ M.testBit v ∧ (M ^^^ 2 ^ v).testBit u
      ∧ 1 ≤ M ^^^ 2 ^ v ∧ M ^^^ 2 ^ v ≤ j
      ∧ s.dp M v = s.dp (M ^^^ 2 ^ v) u + (d u v : WithTop α)
      ∧ s.dp (M ^^^ 2 ^ v) u ≠ ⊤)
  ∧ (∀ M v, M < 2 ^ n → v < n → M.testBit v → 1 ≤ M ^^^ 2 ^ v → M ^^^ 2 ^ v ≤ j →
      s.dp M v ≠ ⊤ → ∃ u, s.parent M v = some u)

/-- One iteration of the multi-start loop of `solve` for `n > 10`: nearest
neighbor plus 2-opt from `startCity`, kept when strictly better than the
best so far.  `none` models `currentBest = [], bestDistance = Infinity`
(any finite distance beats `Infinity`). -/
def multiStep (d : Nat → Nat → α) (n : Nat) (acc : Option (List Nat × α))
    (startCity : Nat) : Option (List Nat × α) :=
  let route := twoOptImprovement d (nearestNeighbor d n startCity)
  let distance := calculateRouteDistance d route
  match acc with
  | none => some (route, distance)
  | some (br, bd) =>
    if distance < bd then some (route, distance) else some (br, bd)

/-- The whole multi-start loop: the first `min n 5` starting cities. -/
def multiStart (d : Nat → Nat → α) (n : Nat) : List Nat :=
  match (List.range (min n 5)).foldl (multiStep d n) none with
  | none => []
  | some (r, _) => r

/-- `solve()` from the source, generically over the distance table: the
route together with the recomputed total distance. -/
def solveR (d : Nat → Nat → α) (n : Nat) : List Nat × α :=
  if n < 2 then ([0], 0)
  else
    let bestRoute :=
      if n ≤ 10 then
        match dynamicProgramming d n with
        | some r => r
        | none => twoOptImprovement d (nearestNeighbor d n 0)
      else multiStart d n
    (bestRoute, calculateRouteDistance d bestRoute)

/-- The greedy-step property claimed of `nearestNeighbor`: entry `k + 1` of
the route is an unvisited city, at minimum distance from entry `k` among
the cities not yet visited, with ties broken in favor of the lowest city
index. -/
def NNStepSpec (d : Nat → Nat → α) (n : Nat) (r : List Nat) (k : Nat) : Prop :=
  r.getD (k + 1) 0 < n
  ∧ r.getD (k + 1) 0 ∉ r.take (k + 1)
  ∧ (∀ c, c < n → c ∉ r.take (k + 1) →
      d (r.getD k 0) (r.getD (k + 1) 0) ≤ d (r.getD k 0) c)
  ∧ (∀ c, c < n → c ∉ r.take (k + 1) →
      d (r.getD k 0) c = d (r.getD k 0) (r.getD (k + 1) 0) → r.getD (k + 1) 0 ≤ c)

/-- A tiny store of JavaScript number arrays: addresses below `next` are
allocated.  Used to express the in-place mutation behavior of the source:
`[...a]` is an allocation, `reverseSection`'s swap loop is an in-place
write.  All other components are embedded purely; this model exists to
state the frame property of `twoOptImprovement`. -/
structure Heap where
  arr : Nat → List Nat
  next : Nat

/-- Allocate a fresh array holding `v`. -/
def halloc (h : Heap) (v : List Nat) : Nat × Heap :=
  (h.next, ⟨fun a => if a = h.next then v else h.arr a, h.next + 1⟩)

/-- Overwrite the array at address `a`. -/
def hwrite (h : Heap) (a : Nat) (v : List Nat) : Heap :=
  ⟨fun b => if b = a then v else h.arr b, h.next⟩

/-- `reverseSection(route, i, j)` as the in-place mutation it is in the
source: the swap loop's net effect is overwriting the array with the
reversed-segment value. -/
def reverseSectionH (h : Heap) (a : Nat) (i j : Nat) : Heap :=
  hwrite h a (reverseSection (h.arr a) i j)

/-- The mutable locals of `twoOptImprovement`, with `bestRoute` held by
reference as in the source. -/
structure TwoOptHState (α : Type) where
  heap : Heap
  bestRef : Nat
  bestDistance : α
  improved : Bool

/-- Store-level body of the inner double loop: `const newRoute =
[...bestRoute]` allocates, `reverseSection(newRoute, i, j)` mutates the
fresh copy in place, and an improvement rebinds `bestRoute` to the new
array without writing to the old one. -/
def twoOptCandidateH (d : Nat → Nat → α) (s : TwoOptHState α) (i j : Nat) :
    TwoOptHState α :=
  if j - i = 1 then s
  else
    let p := halloc s.heap (s.heap.arr s.bestRef)
    let h2 := reverseSectionH p.2 p.1 i j
    let newDistance := calculateRouteDistance d (h2.arr p.1)
    if newDistance < s.bestDistance then ⟨h2, p.1, newDistance, true⟩
    else ⟨h2, s.bestRef, s.bestDistance, s.improved⟩

/-- Store-level full pass of the double loop. -/
def twoOptPassH (d : Nat → Nat → α) (n : Nat) (s : TwoOptHState α) :
    TwoOptHState α :=
  (List.range' 1 (n - 3)).foldl
    (fun s i =>
      (List.range' (i + 1) (n - (i + 1))).foldl (fun s j => twoOptCandidateH d s i j) s)
    s

/-- Store-level `while (improved)` loop. -/
def twoOptAuxH (d : Nat → Nat → α) (n : Nat) : Nat → TwoOptHState α → TwoOptHState α
  | 0, s => s
  | fuel + 1, s0 =>
    let s := twoOptPassH d n ⟨s0.heap, s0.bestRef, s0.bestDistance, false⟩
    if s.improved then twoOptAuxH d n fuel s else s

/-- Store-level `twoOptImprovement(route)`: the argument is a reference
into the store; `let bestRoute = [...route]` allocates the working copy.
Returns the reference to the best route and the final store. -/
def twoOptImprovementH (d : Nat → Nat → α) (h : Heap) (routeRef : Nat) :
    Nat × Heap :=
  let n := (h.arr routeRef).length
  let p := halloc h (h.arr routeRef)
  let s := twoOptAuxH d n (Nat.factorial n + 1)
    ⟨p.2, p.1, calculateRouteDistance d (p.2.arr p.1), true⟩
  (s.bestRef, s.heap)

/-- Invariant carried through `twoOptImprovement`: the current best route
is a permutation of the original, its recorded distance is its true
distance, and that distance never exceeds the original distance. -/
def TwoOptInv (d : Nat → Nat → α) (R0 : List Nat) (D0 : α) (s : TwoOptState α) :
    Prop :=
  s.bestRoute.Perm R0 ∧ calculateRouteDistance d s.bestRoute = s.bestDistance
    ∧ s.bestDistance ≤ D0

end GenericDefs

/-- The `TSPResult` returned by `solve` (the `cities` echo field carries no
algorithmic content and is omitted). -/
structure TSPResult where
  route : List Nat
  totalDistance : ℝ

/-- `solve()` on a list of cities, using the Euclidean distance matrix. -/
noncomputable def solve (cities : List City) : TSPResult :=
  let p := solveR (calculateDistanceMatrix cities) cities.length
  ⟨p.1, p.2⟩

/-- A concrete 12-city instance (used to exercise the orchestrator's
regime selection). -/
noncomputable def cities12 : List City :=
  [⟨0, 0⟩, ⟨1, 0⟩, ⟨2, 0⟩, ⟨3, 0⟩, ⟨4, 0⟩, ⟨5, 0⟩,
   ⟨6, 0⟩, ⟨7, 0⟩, ⟨8, 0⟩, ⟨9, 0⟩, ⟨10, 0⟩, ⟨11, 0⟩]

/-- A concrete 2-city instance. -/
noncomputable def cities2 : List City := [⟨0, 0⟩, ⟨3, 4⟩]

/-- A concrete 3-city instance. -/
noncomputable def cities3 : List City := [⟨0, 0⟩, ⟨3, 0⟩, ⟨3, 4⟩]

/-! ## Theorems -/

theorem euclidDist_self (a : City) : euclidDist a a = 0 := by
  simp [euclidDist]

theorem calculateDistanceMatrix_eq (cities : List City) (i j : Nat) :
    calculateDistanceMatrix cities i j
      = euclidDist (cities.getD i default) (cities.getD j default) := by
  unfold calculateDistanceMatrix
  by_cases h : i = j
  · subst h; simp [euclidDist_self]
  · simp [h]

/-- Invariant preservation through a left fold. -/
theorem foldlInv {β γ : Type} {P : β → Prop} (f : β → γ → β) (l : List γ) (init : β)
    (h0 : P init) (hstep : ∀ s x, x ∈ l → P s → P (f s x)) : P (l.foldl f init) := by
  induction l generalizing init with
  | nil => exact h0
  | cons a t ih =>
    exact ih (f init a) (hstep init a (List.mem_cons_self a t) h0)
      (fun s x hx hs => hstep s x (List.mem_cons_of_mem a hx) hs)

section Generic

variable {α : Type} [LinearOrderedField α]

theorem pathCost_cons_cons (d : Nat → Nat → α) (a b : Nat) (t : List Nat) :
    pathCost d (a :: b :: t) = d a b + pathCost d (b :: t) := rfl

theorem pathCost_append_singleton (d : Nat → Nat → α) (l : List Nat) (hl : l ≠ [])
    (x : Nat) :
    pathCost d (l ++ [x]) = pathCost d l + d (l.getLast hl) x := by
  induction l with
  | nil => simp at hl
  | cons a t ih =>
    cases t with
    | nil => simp [pathCost]
    | cons b t' =>
      have h2 : (b :: t' : List Nat) ≠ [] := by simp
      have := ih h2
      simp only [List.cons_append, pathCost_cons_cons] at *
      rw [this]
      rw [List.getLast_cons h2]
      ring

/-- The sum over consecutive (non-wrapping) pairs of `r`, indexed as in the
source loop, equals `pathCost`. -/
theorem consecSum_eq_pathCost (d : Nat → Nat → α) (r : List Nat) :
    ((List.range (r.length - 1)).map
      (fun i => d (r.getD i 0) (r.getD (i + 1) 0))).sum = pathCost d r := by
  induction r with
  | nil => simp [pathCost]
  | cons a t ih =>
    cases t with
    | nil => simp [pathCost]
    | cons b t' =>
      have hlen : (a :: b :: t' : List Nat).length - 1 = t'.length + 1 := by simp
      have hlen' : (b :: t' : List Nat).length - 1 = t'.length := by simp
      rw [hlen, pathCost_cons_cons, ← ih, hlen', List.range_succ_eq_map]
      simp only [List.map_cons, List.sum_cons, List.map_map]
      have harg :
          List.map ((fun i => d ((a :: b :: t').getD i 0) ((a :: b :: t').getD (i + 1) 0))
              ∘ Nat.succ) (List.range t'.length)
            = List.map (fun i => d ((b :: t').getD i 0) ((b :: t').getD (i + 1) 0))
                (List.range t'.length) := by
        apply List.map_congr_left
        intro i _
        simp [Function.comp, List.getD_cons_succ]
      rw [harg]
      simp [List.getD]

/-- Bridge: the cyclic route distance equals the path cost plus the closing
edge from the last entry back to the first. -/
theorem calculateRouteDistance_eq_pathCost (d : Nat → Nat → α) (r : List Nat)
    (hr : r ≠ []) :
    calculateRouteDistance d r = pathCost d r + d (r.getLast hr) (r.headD 0) := by
  have hpos : 0 < r.length := List.length_pos.mpr hr
  unfold calculateRouteDistance
  have hsplit : List.range r.length = List.range (r.length - 1) ++ [r.length - 1] := by
    rw [← List.range_succ]
    congr 1
    omega
  have hwrap : ∀ i ∈ List.range (r.length - 1),
      d (r.getD i 0) (r.getD ((i + 1) % r.length) 0)
        = d (r.getD i 0) (r.getD (i + 1) 0) := by
    intro i hi
    rw [List.mem_range] at hi
    rw [Nat.mod_eq_of_lt (by omega)]
  rw [hsplit, List.map_append, List.sum_append, List.map_congr_left hwrap,
      consecSum_eq_pathCost]
  have h0 : (r.length - 1 + 1) % r.length = 0 := by
    have h1 : r.length - 1 + 1 = r.length := by omega
    rw [h1, Nat.mod_self]
  have hlast : r.getD (r.length - 1) 0 = r.getLast hr := by
    rw [List.getLast_eq_getElem, List.getD_eq_getElem r 0 (by omega)]
  have hhead : r.getD 0 0 = r.headD 0 := by
    cases r with
    | nil => exact absurd rfl hr
    | cons a t => rfl
  simp only [List.map_cons, List.map_nil, List.sum_cons, List.sum_nil, add_zero,
    h0, hlast, hhead]

theorem pathCost_append (d : Nat → Nat → α) (l₁ l₂ : List Nat)
    (h₁ : l₁ ≠ []) (h₂ : l₂ ≠ []) :
    pathCost d (l₁ ++ l₂)
      = pathCost d l₁ + d (l₁.getLast h₁) (l₂.headD 0) + pathCost d l₂ := by
  induction l₁ with
  | nil => exact absurd rfl h₁
  | cons x t ih =>
    cases t with
    | nil =>
      cases l₂ with
      | nil => exact absurd rfl h₂
      | cons y b => simp [pathCost_cons_cons, pathCost]
    | cons x2 t' =>
      have hne : (x2 :: t' : List Nat) ≠ [] := by simp
      have := ih hne
      simp only [List.cons_append, pathCost_cons_cons] at *
      rw [this, List.getLast_cons hne]
      ring

/-- Cyclic route distance is invariant under rotation of the route. -/
theorem calculateRouteDistance_rotate (d : Nat → Nat → α) (a b : List Nat) :
    calculateRouteDistance d (a ++ b) = calculateRouteDistance d (b ++ a) := by
  cases a with
  | nil => simp
  | cons x a' =>
    cases b with
    | nil => simp
    | cons y b' =>
      have hab : ((x :: a') ++ (y :: b') : List Nat) ≠ [] := by simp
      have hba : ((y :: b') ++ (x :: a') : List Nat) ≠ [] := by simp
      have ha : (x :: a' : List Nat) ≠ [] := by simp
      have hb : (y :: b' : List Nat) ≠ [] := by simp
      rw [calculateRouteDistance_eq_pathCost d _ hab,
          calculateRouteDistance_eq_pathCost d _ hba,
          pathCost_append d _ _ ha hb, pathCost_append d _ _ hb ha]
      have h1 : ((x :: a') ++ (y :: b')).getLast hab = (y :: b').getLast hb :=
        List.getLast_append' _ _ hb
      have h2 : ((y :: b') ++ (x :: a')).getLast hba = (x :: a').getLast ha :=
        List.getLast_append' _ _ ha
      have h3 : ((x :: a') ++ (y :: b') : List Nat).headD 0 = x := rfl
      have h4 : ((y :: b') ++ (x :: a') : List Nat).headD 0 = y := rfl
      rw [h1, h2, h3, h4]
      simp only [List.headD_cons]
      ring

theorem reverseSection_perm (r : List Nat) (i j : Nat) (hij : i ≤ j) :
    (reverseSection r i j).Perm r := by
  unfold reverseSection
  have h3 : (r.drop i).drop (j + 1 - i) = r.drop (j + 1) := by
    rw [List.drop_drop]
    congr 1
    omega
  conv_rhs => rw [← List.take_append_drop i r,
    ← List.take_append_drop (j + 1 - i) (r.drop i), h3]
  rw [List.append_assoc]
  exact List.Perm.append_left _ (List.Perm.append_right _ (List.reverse_perm _))

theorem twoOptCandidate_inv {d : Nat → Nat → α} {R : List Nat} {D0 : α}
    {s : TwoOptState α} {i j : Nat} (hij : i ≤ j) (h : TwoOptInv d R D0 s) :
    TwoOptInv d R D0 (twoOptCandidate d s i j) := by
  obtain ⟨hperm, hdist, hle⟩ := h
  unfold twoOptCandidate
  by_cases hadj : j - i = 1
  · simpa [hadj] using ⟨hperm, hdist, hle⟩
  · simp only [if_neg hadj]
    by_cases himp :
        calculateRouteDistance d (reverseSection s.bestRoute i j) < s.bestDistance
    · simp only [if_pos himp]
      exact ⟨(reverseSection_perm _ i j hij).trans hperm, rfl,
        le_of_lt (lt_of_lt_of_le himp hle)⟩
    · simp only [if_neg himp]
      exact ⟨hperm, hdist, hle⟩

theorem twoOptPass_inv {d : Nat → Nat → α} {R : List Nat} {D0 : α} {n : Nat}
    {s : TwoOptState α} (h : TwoOptInv d R D0 s) :
    TwoOptInv d R D0 (twoOptPass d n s) := by
  unfold twoOptPass
  refine foldlInv _ _ _ h ?_
  intro s1 i hi h1
  refine foldlInv _ _ _ h1 ?_
  intro s2 j hj h2
  rw [List.mem_range'] at hj
  exact twoOptCandidate_inv (by omega) h2

theorem twoOptAux_inv {d : Nat → Nat → α} {R : List Nat} {n : Nat} :
    ∀ (fuel : Nat) (r : List Nat) (dist : α), r.Perm R →
      calculateRouteDistance d r = dist →
      (twoOptAux d n fuel (r, dist)).1.Perm R
        ∧ calculateRouteDistance d (twoOptAux d n fuel (r, dist)).1
            = (twoOptAux d n fuel (r, dist)).2
        ∧ (twoOptAux d n fuel (r, dist)).2 ≤ dist := by
  intro fuel
  induction fuel with
  | zero => intro r dist hperm hdist; exact ⟨hperm, hdist, le_refl _⟩
  | succ f ih =>
    intro r dist hperm hdist
    have hinv : TwoOptInv d R dist (twoOptPass d n ⟨r, dist, false⟩) :=
      twoOptPass_inv ⟨hperm, hdist, le_refl _⟩
    obtain ⟨h1, h2, h3⟩ := hinv
    simp only [twoOptAux]
    by_cases himp : (twoOptPass d n ⟨r, dist, false⟩).improved
    · simp only [if_pos himp]
      obtain ⟨g1, g2, g3⟩ := ih (twoOptPass d n ⟨r, dist, false⟩).bestRoute
        (twoOptPass d n ⟨r, dist, false⟩).bestDistance h1 h2
      exact ⟨g1, g2, le_trans g3 h3⟩
    · simp only [if_neg himp]
      exact ⟨h1, h2, h3⟩

/-- 2-opt never increases the total route distance. -/
theorem twoOptImprovement_le (d : Nat → Nat → α) (route : List Nat) :
    calculateRouteDistance d (twoOptImprovement d route)
      ≤ calculateRouteDistance d route := by
  unfold twoOptImprovement
  obtain ⟨h1, h2, h3⟩ := twoOptAux_inv (R := route) (d := d) (n := route.length)
    (Nat.factorial route.length + 1) route (calculateRouteDistance d route)
    (List.Perm.refl _) rfl
  rw [h2]
  exact h3

/-- Characterization of the nearest-unvisited scan: it returns `none` iff
every city is already visited, and otherwise the first (lowest-index)
strict minimizer of the distance from `current` among unvisited cities. -/
theorem scanNearest_spec (d : Nat → Nat → α) (current : Nat) (route : List Nat) :
    ∀ n, (scanNearest d n current route = none ↔ ∀ i, i < n → i ∈ route)
      ∧ (∀ c b, scanNearest d n current route = some (c, b) →
          c < n ∧ c ∉ route ∧ b = d current c
          ∧ (∀ i, i < n → i ∉ route → b ≤ d current i)
          ∧ (∀ i, i < n → i ∉ route → d current i = b → c ≤ i)) := by
  intro n
  induction n with
  | zero =>
    constructor
    · constructor
      · intro _ i hi
        omega
      · intro _
        rfl
    · intro c b h
      simp [scanNearest] at h
  | succ n ih =>
    obtain ⟨ihnone, ihsome⟩ := ih
    have hstep : scanNearest d (n + 1) current route
        = scanStep d current route (scanNearest d n current route) n := by
      unfold scanNearest
      rw [List.range_succ, List.foldl_append]
      rfl
    rcases hres : scanNearest d n current route with _ | ⟨c, b⟩
    · have hall : ∀ i, i < n → i ∈ route := ihnone.mp hres
      by_cases hmem : n ∈ route
      · have hval : scanNearest d (n + 1) current route = none := by
          rw [hstep, hres]
          simp [scanStep, hmem]
        constructor
        · constructor
          · intro _ i hi
            by_cases hin : i = n
            · subst hin; exact hmem
            · exact hall i (by omega)
          · intro _
            exact hval
        · intro c' b' h
          rw [hval] at h
          exact absurd h (by simp)
      · have hval : scanNearest d (n + 1) current route = some (n, d current n) := by
          rw [hstep, hres]
          simp [scanStep, hmem]
        constructor
        · constructor
          · intro h
            rw [hval] at h
            exact absurd h (by simp)
          · intro h
            exact absurd (h n (by omega)) hmem
        · intro c' b' h
          rw [hval] at h
          have hcb : n = c' ∧ d current n = b' := by simpa using h
          obtain ⟨rfl, rfl⟩ := hcb
          refine ⟨by omega, hmem, rfl, ?_, ?_⟩
          · intro i hi hnin
            by_cases hin : i = n
            · subst hin; exact le_refl _
            · exact absurd (hall i (by omega)) hnin
          · intro i hi hnin _
            by_cases hin : i = n
            · omega
            · exact absurd (hall i (by omega)) hnin
    · obtain ⟨hc, hcnin, hb, hmin, htie⟩ := ihsome c b hres
      by_cases hmem : n ∈ route
      · have hval : scanNearest d (n + 1) current route = some (c, b) := by
          rw [hstep, hres]
          simp [scanStep, hmem]
        constructor
        · constructor
          · intro h
            rw [hval] at h
            exact absurd h (by simp)
          · intro h
            exact absurd (h c (by omega)) hcnin
        · intro c' b' h
          rw [hval] at h
          have hcb : c' = c ∧ b' = b := by simpa using h.symm
          obtain ⟨rfl, rfl⟩ := hcb
          refine ⟨by omega, hcnin, hb, ?_, ?_⟩
          · intro i hi hnin
            by_cases hin : i = n
            · subst hin; exact absurd hmem hnin
            · exact hmin i (by omega) hnin
          · intro i hi hnin heq
            by_cases hin : i = n
            · subst hin; exact absurd hmem hnin
            · exact htie i (by omega) hnin heq
      · by_cases hlt : d current n < b
        · have hval : scanNearest d (n + 1) current route
              = some (n, d current n) := by
            rw [hstep, hres]
            simp [scanStep, hmem, hlt]
          constructor
          · constructor
            · intro h
              rw [hval] at h
              exact absurd h (by simp)
            · intro h
              exact absurd (h n (by omega)) hmem
          · intro c' b' h
            rw [hval] at h
            have hcb : n = c' ∧ d current n = b' := by simpa using h
            obtain ⟨rfl, rfl⟩ := hcb
            refine ⟨by omega, hmem, rfl, ?_, ?_⟩
            · intro i hi hnin
              by_cases hin : i = n
              · subst hin; exact le_refl _
              · exact le_of_lt (lt_of_lt_of_le hlt (hmin i (by omega) hnin))
            · intro i hi hnin heq
              by_cases hin : i = n
              · omega
              · exact absurd heq (by
                  have := hmin i (by omega) hnin
                  exact ne_of_gt (lt_of_lt_of_le hlt this))
        · have hval : scanNearest d (n + 1) current route = some (c, b) := by
            rw [hstep, hres]
            simp [scanStep, hmem, hlt]
          constructor
          · constructor
            · intro h
              rw [hval] at h
              exact absurd h (by simp)
            · intro h
              exact absurd (h c (by omega)) hcnin
          · intro c' b' h
            rw [hval] at h
            have hcb : c' = c ∧ b' = b := by simpa using h.symm
            obtain ⟨rfl, rfl⟩ := hcb
            refine ⟨by omega, hcnin, hb, ?_, ?_⟩
            · intro i hi hnin
              by_cases hin : i = n
              · subst hin; exact not_lt.mp hlt
              · exact hmin i (by omega) hnin
            · intro i hi hnin heq
              by_cases hin : i = n
              · omega
              · exact htie i (by omega) hnin heq

/-- The nearest-neighbor loop invariant: starting from a nonempty
duplicate-free partial route of in-range cities with enough fuel to fill it,
it produces a duplicate-free route of in-range cities of length `n`
extending the partial route. -/
theorem nearestNeighborAux_spec (d : Nat → Nat → α) (n : Nat) :
    ∀ fuel current route, route.Nodup → (∀ x ∈ route, x < n) →
      fuel + route.length = n →
      (nearestNeighborAux d n fuel current route).Nodup
      ∧ (∀ x ∈ nearestNeighborAux d n fuel current route, x < n)
      ∧ (nearestNeighborAux d n fuel current route).length = n
      ∧ route <+: nearestNeighborAux d n fuel current route := by
  intro fuel
  induction fuel with
  | zero =>
    intro current route h1 h2 h4
    simp only [nearestNeighborAux]
    exact ⟨h1, h2, by omega, List.prefix_refl _⟩
  | succ f ih =>
    intro current route h1 h2 h4
    rcases hscan : scanNearest d n current route with _ | ⟨c, b⟩
    · exfalso
      have hall := (scanNearest_spec d current route n).1.mp hscan
      have hsub : List.range n ⊆ route := fun x hx => hall x (List.mem_range.mp hx)
      have hsp : List.Subperm (List.range n) route := (List.nodup_range n).subperm hsub
      have hlen : n ≤ route.length := by
        simpa using hsp.length_le
      omega
    · obtain ⟨hc, hcnin, _, _, _⟩ := (scanNearest_spec d current route n).2 c b hscan
      have hstep : nearestNeighborAux d n (f + 1) current route
          = nearestNeighborAux d n f c (route ++ [c]) := by
        rw [nearestNeighborAux, hscan]
      have hnd : (route ++ [c]).Nodup := by
        rw [List.nodup_append]
        refine ⟨h1, List.nodup_singleton c, ?_⟩
        intro a ha hac
        simp only [List.mem_singleton] at hac
        subst hac
        exact hcnin ha
      have hbd : ∀ x ∈ route ++ [c], x < n := by
        intro x hx
        rcases List.mem_append.mp hx with h | h
        · exact h2 x h
        · simp only [List.mem_singleton] at h
          subst h
          exact hc
      have hfl : f + (route ++ [c]).length = n := by
        simp only [List.length_append, List.length_singleton]
        omega
      obtain ⟨g1, g2, g3, g4⟩ := ih c (route ++ [c]) hnd hbd hfl
      rw [hstep]
      exact ⟨g1, g2, g3, (List.prefix_append route [c]).trans g4⟩

/-- Nearest neighbor from any valid starting city visits every city exactly
once. -/
theorem nearestNeighbor_perm (d : Nat → Nat → α) {n s : Nat} (hs : s < n) :
    (nearestNeighbor d n s).Perm (List.range n) := by
  have h4 : (n - 1) + ([s] : List Nat).length = n := by
    simp only [List.length_singleton]
    omega
  obtain ⟨h1, h2, h3, _⟩ := nearestNeighborAux_spec d n (n - 1) s [s]
    (List.nodup_singleton s) (by intro x hx; simp only [List.mem_singleton] at hx; omega) h4
  have hsub : nearestNeighbor d n s ⊆ List.range n := by
    intro x hx
    exact List.mem_range.mpr (h2 x hx)
  have hsp : List.Subperm (nearestNeighbor d n s) (List.range n) := h1.subperm hsub
  have hlen : (List.range n).length ≤ (nearestNeighbor d n s).length := by
    rw [List.length_range]
    have he : nearestNeighbor d n s = nearestNeighborAux d n (n - 1) s [s] := rfl
    rw [he, h3]
  exact hsp.perm_of_length_le hlen

/-- Nearest neighbor starts its route at the starting city. -/
theorem nearestNeighbor_head (d : Nat → Nat → α) (n s : Nat) :
    (nearestNeighbor d n s).headD 0 = s := by
  unfold nearestNeighbor
  generalize n - 1 = fuel
  cases hfuel : fuel with
  | zero => rfl
  | succ f =>
    unfold nearestNeighborAux
    rcases hscan : scanNearest d n s [s] with _ | ⟨c, b⟩
    · rfl
    · have hpre : ∀ fuel' cur (route : List Nat), route ≠ [] →
          (nearestNeighborAux d n fuel' cur route).headD 0 = route.headD 0 := by
        intro fuel'
        induction fuel' with
        | zero => intro cur route _; rfl
        | succ f' ih =>
          intro cur route hne
          unfold nearestNeighborAux
          rcases hscan' : scanNearest d n cur route with _ | ⟨c', b'⟩
          · rfl
          · rw [ih c' (route ++ [c']) (by simp)]
            cases route with
            | nil => exact absurd rfl hne
            | cons a t => rfl
      rw [hpre f c ([s] ++ [c]) (by simp)]
      rfl

/-- 2-opt returns a permutation of its input route. -/
theorem twoOptImprovement_perm (d : Nat → Nat → α) (route : List Nat) :
    (twoOptImprovement d route).Perm route := by
  unfold twoOptImprovement
  exact (twoOptAux_inv (R := route) (d := d) (n := route.length)
    (Nat.factorial route.length + 1) route (calculateRouteDistance d route)
    (List.Perm.refl _) rfl).1

/-- The multi-start heuristic returns a permutation of all cities. -/
theorem multiStart_perm (d : Nat → Nat → α) {n : Nat} (hn : 1 ≤ n) :
    (multiStart d n).Perm (List.range n) := by
  unfold multiStart
  have hmin : 1 ≤ min n 5 := by omega
  rcases hrange : List.range (min n 5) with _ | ⟨a, L⟩
  · exact absurd (List.range_eq_nil.mp hrange) (by omega)
  · have ha : a < n := by
      have h1 : a ∈ List.range (min n 5) := by
        rw [hrange]
        exact List.mem_cons_self a L
      have := List.mem_range.mp h1
      omega
    have hL : ∀ x ∈ L, x < n := by
      intro x hx
      have h1 : x ∈ List.range (min n 5) := by
        rw [hrange]
        exact List.mem_cons_of_mem a hx
      have := List.mem_range.mp h1
      omega
    rw [List.foldl_cons]
    have hP : ∃ r b, List.foldl (multiStep d n) (multiStep d n none a) L = some (r, b)
        ∧ r.Perm (List.range n) := by
      refine foldlInv
        (P := fun acc => ∃ r b, acc = some (r, b) ∧ r.Perm (List.range n))
        (multiStep d n) L (multiStep d n none a) ?_ ?_
      · exact ⟨_, _, rfl,
          (twoOptImprovement_perm _ _).trans (nearestNeighbor_perm d ha)⟩
      · intro s x hx hs
        obtain ⟨r, b, heq, hperm⟩ := hs
        simp only [multiStep, heq]
        by_cases hlt :
            calculateRouteDistance d (twoOptImprovement d (nearestNeighbor d n x)) < b
        · exact ⟨_, _, by rw [if_pos hlt],
            (twoOptImprovement_perm _ _).trans (nearestNeighbor_perm d (hL x hx))⟩
        · exact ⟨r, b, by rw [if_neg hlt], hperm⟩
    obtain ⟨r, b, heq, hperm⟩ := hP
    rw [heq]
    exact hperm

/-- `pathCost` as a sum over consecutive pairs. -/
theorem pathCost_eq_zipSum (d : Nat → Nat → α) (r : List Nat) :
    pathCost d r = ((r.zip r.tail).map (fun p => d p.1 p.2)).sum := by
  induction r with
  | nil => simp [pathCost]
  | cons a t ih =>
    cases t with
    | nil => simp [pathCost]
    | cons b t' =>
      rw [pathCost_cons_cons, ih]
      simp [List.zip_cons_cons]

/-- Greedy invariant for the nearest-neighbor loop: if the partial route
satisfies the greedy-step property at every filled position and `current`
is its last entry, so does the final route. -/
theorem nearestNeighborAux_greedy (d : Nat → Nat → α) (n : Nat) :
    ∀ fuel current route, route ≠ [] →
      route.getD (route.length - 1) 0 = current →
      (∀ k, k + 1 < route.length → NNStepSpec d n route k) →
      ∀ k, k + 1 < (nearestNeighborAux d n fuel current route).length →
        NNStepSpec d n (nearestNeighborAux d n fuel current route) k := by
  intro fuel
  induction fuel with
  | zero =>
    intro current route _ _ hG
    simpa only [nearestNeighborAux] using hG
  | succ f ih =>
    intro current route hne hcur hG
    rcases hscan : scanNearest d n current route with _ | ⟨c, b⟩
    · have hval : nearestNeighborAux d n (f + 1) current route = route := by
        rw [nearestNeighborAux, hscan]
      rw [hval]
      exact hG
    · obtain ⟨hc, hcnin, hb, hmin, htie⟩ := (scanNearest_spec d current route n).2 c b hscan
      have hval : nearestNeighborAux d n (f + 1) current route
          = nearestNeighborAux d n f c (route ++ [c]) := by
        rw [nearestNeighborAux, hscan]
      rw [hval]
      have hlen : 0 < route.length := List.length_pos.mpr hne
      have hgetc : (route ++ [c]).getD route.length 0 = c := by
        rw [List.getD_append_right _ _ _ _ (le_refl _)]
        simp
      apply ih c (route ++ [c]) (by simp)
      · rw [List.length_append, List.length_singleton]
        simpa using hgetc
      · intro k hk
        rw [List.length_append, List.length_singleton] at hk
        by_cases hkl : k + 1 < route.length
        · obtain ⟨p1, p2, p3, p4⟩ := hG k hkl
          have e1 : (route ++ [c]).getD (k + 1) 0 = route.getD (k + 1) 0 :=
            List.getD_append _ _ _ _ hkl
          have e2 : (route ++ [c]).getD k 0 = route.getD k 0 :=
            List.getD_append _ _ _ _ (by omega)
          have e3 : (route ++ [c]).take (k + 1) = route.take (k + 1) :=
            List.take_append_of_le_length (by omega)
          exact ⟨by rw [e1]; exact p1, by rw [e1, e3]; exact p2,
            by
              intro c' hc' hnin
              rw [e1, e2]
              rw [e3] at hnin
              exact p3 c' hc' hnin,
            by
              intro c' hc' hnin heq
              rw [e1, e2] at *
              rw [e3] at hnin
              exact p4 c' hc' (by rwa [e2] at heq) (by rwa [e1, e2] at heq)⟩
        · have hkeq : k + 1 = route.length := by omega
          have e1 : (route ++ [c]).getD (k + 1) 0 = c := by
            rw [hkeq]
            exact hgetc
          have e2 : (route ++ [c]).getD k 0 = current := by
            rw [List.getD_append _ _ _ _ (by omega)]
            rw [show k = route.length - 1 by omega]
            exact hcur
          have e3 : (route ++ [c]).take (k + 1) = route := by
            rw [hkeq]
            exact List.take_left route [c]
          refine ⟨by rw [e1]; exact hc, by rw [e1, e3]; exact hcnin, ?_, ?_⟩
          · intro c' hc' hnin
            rw [e1, e2]
            rw [e3] at hnin
            have := hmin c' hc' hnin
            rw [hb] at this
            exact this
          · intro c' hc' hnin heq
            rw [e1, e2] at heq
            rw [e1]
            rw [e3] at hnin
            exact htie c' hc' hnin (by rw [heq, hb])

/-- The nearest-neighbor heuristic satisfies the greedy specification:
length `n`, starts at `s`, and every subsequent entry is the
lowest-index nearest unvisited city. -/
theorem nearestNeighbor_greedySpec (d : Nat → Nat → α) {n s : Nat} (hs : s < n) :
    (nearestNeighbor d n s).length = n
    ∧ (nearestNeighbor d n s).headD 0 = s
    ∧ ∀ k, k + 1 < n → NNStepSpec d n (nearestNeighbor d n s) k := by
  have h4 : (n - 1) + ([s] : List Nat).length = n := by
    simp only [List.length_singleton]
    omega
  obtain ⟨_, _, h3, _⟩ := nearestNeighborAux_spec d n (n - 1) s [s]
    (List.nodup_singleton s)
    (by intro x hx; simp only [List.mem_singleton] at hx; omega) h4
  refine ⟨h3, nearestNeighbor_head d n s, ?_⟩
  intro k hk
  have := nearestNeighborAux_greedy d n (n - 1) s [s] (by simp) (by simp)
    (by intro k hk; simp at hk) k
  apply this
  show k + 1 < (nearestNeighborAux d n (n - 1) s [s]).length
  rw [h3]
  exact hk

/-! ### Bit-level lemmas for the mask analysis -/

theorem testBit_lt_n {M v n : Nat} (hM : M < 2 ^ n) (h : M.testBit v = true) :
    v < n := by
  by_contra hv
  push_neg at hv
  have hlt : M < 2 ^ v :=
    lt_of_lt_of_le hM (Nat.pow_le_pow_right (by norm_num) hv)
  rw [Nat.testBit_eq_false_of_lt hlt] at h
  exact absurd h (by simp)

theorem xor_two_pow_testBit_self (M v : Nat) (h : M.testBit v = true) :
    (M ^^^ 2 ^ v).testBit v = false := by
  rw [Nat.testBit_xor, h, Nat.testBit_two_pow_self]
  rfl

theorem xor_two_pow_testBit_ne (M v i : Nat) (h : i ≠ v) :
    (M ^^^ 2 ^ v).testBit i = M.testBit i := by
  rw [Nat.testBit_xor, Nat.testBit_two_pow_of_ne (Ne.symm h)]
  simp

theorem xor_two_pow_lt {M v : Nat} (h : M.testBit v = true) : M ^^^ 2 ^ v < M := by
  apply Nat.lt_of_testBit v (xor_two_pow_testBit_self M v h) h
  intro j hj
  exact xor_two_pow_testBit_ne M v j (by omega)

theorem lor_two_pow_testBit_self (M v : Nat) : (M ||| 2 ^ v).testBit v = true := by
  rw [Nat.testBit_lor, Nat.testBit_two_pow_self]
  simp

theorem lor_two_pow_testBit_ne (M v i : Nat) (h : i ≠ v) :
    (M ||| 2 ^ v).testBit i = M.testBit i := by
  rw [Nat.testBit_lor, Nat.testBit_two_pow_of_ne (Ne.symm h)]
  simp

theorem lor_xor_cancel {M v : Nat} (h : M.testBit v = false) :
    (M ||| 2 ^ v) ^^^ 2 ^ v = M := by
  apply Nat.eq_of_testBit_eq
  intro i
  by_cases hi : i = v
  · subst hi
    rw [xor_two_pow_testBit_self _ _ (lor_two_pow_testBit_self M i), h]
  · rw [xor_two_pow_testBit_ne _ _ _ hi, lor_two_pow_testBit_ne _ _ _ hi]

theorem xor_lor_cancel {M v : Nat} (h : M.testBit v = true) :
    (M ^^^ 2 ^ v) ||| 2 ^ v = M := by
  apply Nat.eq_of_testBit_eq
  intro i
  by_cases hi : i = v
  · subst hi
    rw [lor_two_pow_testBit_self, h]
  · rw [lor_two_pow_testBit_ne _ _ _ hi, xor_two_pow_testBit_ne _ _ _ hi]

theorem lor_two_pow_lt_two_pow {M v n : Nat} (hM : M < 2 ^ n) (hv : v < n) :
    M ||| 2 ^ v < 2 ^ n :=
  Nat.or_lt_two_pow hM (Nat.pow_lt_pow_right (by norm_num) hv)

theorem bitCnt_le (n M : Nat) : bitCnt n M ≤ n := by
  unfold bitCnt
  calc ((Finset.range n).filter (fun i => M.testBit i)).card
      ≤ (Finset.range n).card := Finset.card_filter_le _ _
    _ = n := Finset.card_range n

theorem bitCnt_pos {n M v : Nat} (hv : v < n) (h : M.testBit v = true) :
    1 ≤ bitCnt n M := by
  unfold bitCnt
  have hmem : v ∈ (Finset.range n).filter (fun i => M.testBit i) := by
    simp [Finset.mem_filter, Finset.mem_range, hv, h]
  exact Finset.card_pos.mpr ⟨v, hmem⟩

theorem bitCnt_xor {n M v : Nat} (hv : v < n) (h : M.testBit v = true) :
    bitCnt n (M ^^^ 2 ^ v) = bitCnt n M - 1 := by
  unfold bitCnt
  have hset : (Finset.range n).filter (fun i => (M ^^^ 2 ^ v).testBit i)
      = ((Finset.range n).filter (fun i => M.testBit i)).erase v := by
    ext i
    simp only [Finset.mem_filter, Finset.mem_erase, Finset.mem_range]
    constructor
    · rintro ⟨hi, hb⟩
      by_cases hiv : i = v
      · subst hiv
        rw [xor_two_pow_testBit_self _ _ h] at hb
        exact absurd hb (by simp)
      · rw [xor_two_pow_testBit_ne _ _ _ hiv] at hb
        exact ⟨hiv, hi, hb⟩
    · rintro ⟨hiv, hi, hb⟩
      rw [xor_two_pow_testBit_ne _ _ _ hiv]
      exact ⟨hi, hb⟩
  rw [hset, Finset.card_erase_of_mem
    (by simp [Finset.mem_filter, Finset.mem_range, hv, h])]

theorem bitCnt_ones (n : Nat) : bitCnt n (2 ^ n - 1) = n := by
  unfold bitCnt
  have hset : (Finset.range n).filter (fun i => (2 ^ n - 1).testBit i)
      = Finset.range n := by
    ext i
    simp [Finset.mem_filter, Finset.mem_range, Nat.testBit_two_pow_sub_one]
  rw [hset, Finset.card_range]

theorem bitCnt_le_of_unset {n M v : Nat} (hv : v < n) (h : M.testBit v = false) :
    bitCnt n M ≤ n - 1 := by
  unfold bitCnt
  have hsub : (Finset.range n).filter (fun i => M.testBit i)
      ⊆ (Finset.range n).erase v := by
    intro i hi
    simp only [Finset.mem_filter, Finset.mem_range] at hi
    simp only [Finset.mem_erase, Finset.mem_range]
    refine ⟨?_, hi.1⟩
    intro hiv
    subst hiv
    rw [h] at hi
    exact absurd hi.2 (by simp)
  calc ((Finset.range n).filter (fun i => M.testBit i)).card
      ≤ ((Finset.range n).erase v).card := Finset.card_le_card hsub
    _ = n - 1 := by
        rw [Finset.card_erase_of_mem (Finset.mem_range.mpr hv), Finset.card_range]

theorem bitCnt_eq_zero {n M : Nat} (hM : M < 2 ^ n) (h : bitCnt n M = 0) :
    M = 0 := by
  apply Nat.eq_of_testBit_eq
  intro i
  rw [Nat.zero_testBit]
  cases hbit : M.testBit i
  · rfl
  · exfalso
    by_cases hi : i < n
    · have hmem : i ∈ (Finset.range n).filter (fun j => M.testBit j) := by
        simp [Finset.mem_filter, Finset.mem_range, hi, hbit]
      have hpos := Finset.card_pos.mpr ⟨i, hmem⟩
      unfold bitCnt at h
      omega
    · have hlt : M < 2 ^ i :=
        lt_of_lt_of_le hM (Nat.pow_le_pow_right (by norm_num) (by omega))
      rw [Nat.testBit_eq_false_of_lt hlt] at hbit
      exact absurd hbit (by simp)

/-! ### Generic fold lemmas -/

theorem foldl_congr2 {β γ : Type} (l : List γ) (f g : β → γ → β)
    (h : ∀ acc x, x ∈ l → f acc x = g acc x) :
    ∀ init, l.foldl f init = l.foldl g init := by
  induction l with
  | nil => intro _; rfl
  | cons a t ih =>
    intro init
    simp only [List.foldl_cons]
    rw [h init a (List.mem_cons_self a t)]
    exact ih (fun acc x hx => h acc x (List.mem_cons_of_mem a hx)) (g init a)

theorem foldl_if_eq_filter {β γ : Type} (p : γ → Bool) (f : β → γ → β) :
    ∀ (l : List γ) (init : β),
      l.foldl (fun acc x => if p x then f acc x else acc) init
        = (l.filter p).foldl f init := by
  intro l
  induction l with
  | nil => intro _; rfl
  | cons a t ih =>
    intro init
    by_cases h : p a
    · simp only [List.foldl_cons, List.filter_cons, if_pos h, h]
      exact ih (f init a)
    · simp only [List.foldl_cons, List.filter_cons, if_neg h]
      exact ih init

theorem foldl_min_le_init {β : Type} (F : β → WithTop α) (l : List β) :
    ∀ init, l.foldl (fun acc x => min acc (F x)) init ≤ init := by
  induction l with
  | nil => intro _; exact le_refl _
  | cons a t ih =>
    intro init
    exact le_trans (ih _) (min_le_left _ _)

theorem foldl_min_le_mem {β : Type} (F : β → WithTop α) (l : List β) :
    ∀ init x, x ∈ l → l.foldl (fun acc y => min acc (F y)) init ≤ F x := by
  induction l with
  | nil =>
    intro _ x hx
    exact absurd hx (List.not_mem_nil x)
  | cons a t ih =>
    intro init x hx
    rcases List.mem_cons.mp hx with h | h
    · subst h
      exact le_trans (foldl_min_le_init F t _) (min_le_right _ _)
    · exact ih _ x h

theorem optA_succ_unset (d : Nat → Nat → α) (n fuel : Nat) {M v : Nat}
    (hbit : M.testBit v = false) : optA d n (fuel + 1) M v = ⊤ := by
  rw [optA, if_pos (by simp [hbit])]

theorem optA_succ_base (d : Nat → Nat → α) (n fuel : Nat) {M v : Nat}
    (hbit : M.testBit v = true) (hbase : M ^^^ 2 ^ v = 0) :
    optA d n (fuel + 1) M v = if v = 0 then ((0 : α) : WithTop α) else ⊤ := by
  rw [optA, if_neg (by simp [hbit]), if_pos hbase]

theorem optA_succ_step (d : Nat → Nat → α) (n fuel : Nat) {M v : Nat}
    (hbit : M.testBit v = true) (hbase : M ^^^ 2 ^ v ≠ 0) :
    optA d n (fuel + 1) M v
      = ((List.range n).filter (fun u => (M ^^^ 2 ^ v).testBit u)).foldl
          (fun acc u => min acc (optA d n fuel (M ^^^ 2 ^ v) u + (d u v : WithTop α)))
          ⊤ := by
  rw [optA, if_neg (by simp [hbit]), if_neg hbase]

/-- The Bellman value does not depend on the fuel, once the fuel covers the
number of cities in the mask. -/
theorem optA_fuel_eq (d : Nat → Nat → α) (n : Nat) :
    ∀ M, M < 2 ^ n → ∀ f g v, bitCnt n M ≤ f → bitCnt n M ≤ g →
      optA d n f M v = optA d n g M v := by
  intro M
  induction M using Nat.strong_induction_on with
  | _ M ih =>
    intro hM f g v hf hg
    rcases hzf : f with _ | f'
    · subst hzf
      have hM0 : M = 0 := bitCnt_eq_zero hM (by omega)
      subst hM0
      rcases hzg : g with _ | g'
      · rfl
      · show ⊤ = optA d n (g' + 1) 0 v
        rw [optA, if_pos (by simp [Nat.zero_testBit])]
    · subst hzf
      rcases hzg : g with _ | g'
      · subst hzg
        have hM0 : M = 0 := bitCnt_eq_zero hM (by omega)
        subst hM0
        show optA d n (f' + 1) 0 v = ⊤
        rw [optA, if_pos (by simp [Nat.zero_testBit])]
      · subst hzg
        cases hbit : M.testBit v with
        | false =>
          rw [optA_succ_unset d n f' hbit, optA_succ_unset d n g' hbit]
        | true =>
          have hvn : v < n := testBit_lt_n hM hbit
          by_cases hbase : M ^^^ 2 ^ v = 0
          · rw [optA_succ_base d n f' hbit hbase, optA_succ_base d n g' hbit hbase]
          · rw [optA_succ_step d n f' hbit hbase, optA_succ_step d n g' hbit hbase]
            apply foldl_congr2
            intro acc u hu
            have hcnt : bitCnt n (M ^^^ 2 ^ v) = bitCnt n M - 1 := bitCnt_xor hvn hbit
            have hcp : 1 ≤ bitCnt n M := bitCnt_pos hvn hbit
            have hrec := ih (M ^^^ 2 ^ v) (xor_two_pow_lt hbit)
              (lt_trans (xor_two_pow_lt hbit) hM) f' g' u (by omega) (by omega)
            rw [hrec]

theorem headD_append_singleton (l : List Nat) (x : Nat) (hl : l ≠ []) :
    (l ++ [x]).headD 0 = l.headD 0 := by
  cases l with
  | nil => exact absurd rfl hl
  | cons a t => rfl

/-- The Bellman value is a lower bound on the cost of every Hamiltonian
path on `M` from 0 to `v`. -/
theorem optA_le_pathCost (d : Nat → Nat → α) (n : Nat) :
    ∀ M, M < 2 ^ n → ∀ (l : List Nat) (v f : Nat), bitCnt n M ≤ f →
      isPath n M l → l.getLast? = some v →
      optA d n f M v ≤ ↑(pathCost d l) := by
  intro M
  induction M using Nat.strong_induction_on with
  | _ M ih =>
    intro hM l v f hf hpath hlast
    obtain ⟨hne, hhead, hnodup, hmem⟩ := hpath
    have hsplit : l.dropLast ++ [l.getLast hne] = l := List.dropLast_append_getLast hne
    have hvlast : l.getLast hne = v := by
      rw [List.getLast?_eq_getLast l hne] at hlast
      exact Option.some.inj hlast
    have hvmem : v ∈ l := hvlast ▸ List.getLast_mem hne
    have hvn : v < n := ((hmem v).mp hvmem).1
    have hvbit : M.testBit v = true := ((hmem v).mp hvmem).2
    have hfpos : 1 ≤ f := le_trans (bitCnt_pos hvn hvbit) hf
    obtain ⟨f', rfl⟩ : ∃ f', f = f' + 1 := ⟨f - 1, by omega⟩
    have hsplit' : l.dropLast ++ [v] = l := by rw [← hvlast]; exact hsplit
    by_cases hl' : l.dropLast = []
    · have hl : l = [v] := by rw [← hsplit', hl']; rfl
      have hv0 : v = 0 := by
        have hh : l.headD 0 = v := by rw [hl]; rfl
        rw [hhead] at hh
        omega
      have hM2 : M = 2 ^ v := by
        apply Nat.eq_of_testBit_eq
        intro i
        by_cases hiv : i = v
        · subst hiv
          rw [hvbit, Nat.testBit_two_pow_self]
        · rw [Nat.testBit_two_pow_of_ne (fun he => hiv he.symm)]
          cases hbi : M.testBit i
          · rfl
          · exfalso
            have hin : i < n := testBit_lt_n hM hbi
            have hil : i ∈ l := (hmem i).mpr ⟨hin, hbi⟩
            rw [hl, List.mem_singleton] at hil
            exact hiv hil
      have hbase : M ^^^ 2 ^ v = 0 := by rw [hM2, Nat.xor_self]
      rw [optA_succ_base d n f' hvbit hbase, if_pos hv0, hl]
      show ((0 : α) : WithTop α) ≤ ↑(pathCost d [v])
      rw [show pathCost d [v] = 0 from rfl]
    · have hnd : l.dropLast.Nodup ∧ v ∉ l.dropLast := by
        have h1 : (l.dropLast ++ [v]).Nodup := by rw [hsplit']; exact hnodup
        rw [List.nodup_append] at h1
        exact ⟨h1.1, fun hv => h1.2.2 hv (List.mem_singleton_self v)⟩
      have hmem' : ∀ x, x ∈ l.dropLast ↔ (x < n ∧ (M ^^^ 2 ^ v).testBit x = true) := by
        intro x
        constructor
        · intro hx
          have hxl : x ∈ l := by rw [← hsplit']; exact List.mem_append_left _ hx
          have hxv : x ≠ v := fun he => hnd.2 (he ▸ hx)
          obtain ⟨h1, h2⟩ := (hmem x).mp hxl
          exact ⟨h1, by rw [xor_two_pow_testBit_ne _ _ _ hxv]; exact h2⟩
        · intro ⟨h1, h2⟩
          have hxv : x ≠ v := by
            intro he
            subst he
            rw [xor_two_pow_testBit_self _ _ hvbit] at h2
            exact absurd h2 (by simp)
          have hxl : x ∈ l := (hmem x).mpr ⟨h1,
            by rw [xor_two_pow_testBit_ne _ _ _ hxv] at h2; exact h2⟩
          rw [← hsplit'] at hxl
          rcases List.mem_append.mp hxl with h | h
          · exact h
          · rw [List.mem_singleton] at h
            exact absurd h hxv
      have hpath' : isPath n (M ^^^ 2 ^ v) l.dropLast :=
        ⟨hl', by
          rw [← headD_append_singleton l.dropLast v hl', hsplit']
          exact hhead, hnd.1, hmem'⟩
      have hu := List.getLast?_eq_getLast l.dropLast hl'
      set u := l.dropLast.getLast hl' with hudef
      have humem : u ∈ l.dropLast := List.getLast_mem hl'
      obtain ⟨hun, hubit⟩ := (hmem' u).mp humem
      have hbase : M ^^^ 2 ^ v ≠ 0 := by
        intro h0
        rw [h0, Nat.zero_testBit] at hubit
        exact absurd hubit (by simp)
      have hcnt : bitCnt n (M ^^^ 2 ^ v) = bitCnt n M - 1 := bitCnt_xor hvn hvbit
      have hrec := ih (M ^^^ 2 ^ v) (xor_two_pow_lt hvbit)
        (lt_trans (xor_two_pow_lt hvbit) hM) l.dropLast u f'
        (by have := bitCnt_pos hvn hvbit; omega) hpath' hu
      rw [optA_succ_step d n f' hvbit hbase]
      have hle1 := foldl_min_le_mem
        (fun u => optA d n f' (M ^^^ 2 ^ v) u + (d u v : WithTop α))
        ((List.range n).filter (fun u => (M ^^^ 2 ^ v).testBit u)) ⊤ u
        (by rw [List.mem_filter]; exact ⟨List.mem_range.mpr hun, hubit⟩)
      have hpc : pathCost d l = pathCost d l.dropLast + d u v := by
        conv_lhs => rw [← hsplit']
        exact pathCost_append_singleton d l.dropLast hl' v
      rw [hpc]
      calc ((List.range n).filter (fun u => (M ^^^ 2 ^ v).testBit u)).foldl
            (fun acc u => min acc (optA d n f' (M ^^^ 2 ^ v) u + (d u v : WithTop α))) ⊤
          ≤ optA d n f' (M ^^^ 2 ^ v) u + (d u v : WithTop α) := hle1
        _ ≤ ↑(pathCost d l.dropLast) + (d u v : WithTop α) := add_le_add_right hrec _
        _ = ↑(pathCost d l.dropLast + d u v) := (WithTop.coe_add _ _).symm

theorem isPath_range (n : Nat) (hn : 1 ≤ n) : isPath n (2 ^ n - 1) (List.range n) := by
  refine ⟨?_, ?_, List.nodup_range n, ?_⟩
  · intro h
    rw [List.range_eq_nil] at h
    omega
  · have : List.range n = 0 :: (List.range (n - 1)).map Nat.succ := by
      rw [← List.range_succ_eq_map]
      congr 1
      omega
    rw [this]
    rfl
  · intro x
    rw [List.mem_range, Nat.testBit_two_pow_sub_one]
    simp

theorem getLast?_range (n : Nat) (hn : 1 ≤ n) :
    (List.range n).getLast? = some (n - 1) := by
  have h : List.range n = List.range (n - 1) ++ [n - 1] := by
    rw [← List.range_succ]
    congr 1
    omega
  rw [h, List.getLast?_concat]

theorem bestLast_aux (d : Nat → Nat → α) (n : Nat) (dp : Nat → Nat → WithTop α) :
    ∀ k,
      (∀ i, 1 ≤ i → i < 1 + k →
        ((List.range' 1 k).foldl (bestLastStep d n dp) (⊤, none)).1
          ≤ dp (2 ^ n - 1) i + (d i 0 : WithTop α))
      ∧ ((List.range' 1 k).foldl (bestLastStep d n dp) (⊤, none) = (⊤, none)
        ∨ ∃ i, 1 ≤ i ∧ i < 1 + k
            ∧ ((List.range' 1 k).foldl (bestLastStep d n dp) (⊤, none)).2 = some i
            ∧ ((List.range' 1 k).foldl (bestLastStep d n dp) (⊤, none)).1
                = dp (2 ^ n - 1) i + (d i 0 : WithTop α)) := by
  intro k
  induction k with
  | zero =>
    constructor
    · intro i h1 h2
      omega
    · exact Or.inl rfl
  | succ k ih =>
    obtain ⟨ihb, ihc⟩ := ih
    have hconcat : List.range' 1 (k + 1) = List.range' 1 k ++ [1 + k] := by
      rw [List.range'_concat]
      simp
    rw [hconcat, List.foldl_append]
    set R := (List.range' 1 k).foldl (bestLastStep d n dp) (⊤, none) with hR
    simp only [List.foldl_cons, List.foldl_nil]
    unfold bestLastStep
    by_cases hlt : dp (2 ^ n - 1) (1 + k) + (d (1 + k) 0 : WithTop α) < R.1
    · rw [if_pos hlt]
      constructor
      · intro i h1 h2
        by_cases hik : i = 1 + k
        · subst hik
          exact le_refl _
        · exact le_trans (le_of_lt hlt) (ihb i h1 (by omega))
      · exact Or.inr ⟨1 + k, by omega, by omega, rfl, rfl⟩
    · rw [if_neg hlt]
      constructor
      · intro i h1 h2
        by_cases hik : i = 1 + k
        · subst hik
          exact not_lt.mp hlt
        · exact ihb i h1 (by omega)
      · rcases ihc with h | ⟨i, hi1, hi2, hi3, hi4⟩
        · left
          exact h
        · right
          exact ⟨i, hi1, by omega, hi3, hi4⟩

/-- Characterization of the closing-cost loop: the accumulated cost is a
lower bound over all candidate last cities, and when finite it is attained
at the recorded arg-min city. -/
theorem bestLast_spec (d : Nat → Nat → α) (n : Nat) (dp : Nat → Nat → WithTop α) :
    (∀ i, 1 ≤ i → i < n →
      (bestLast d n dp).1 ≤ dp (2 ^ n - 1) i + (d i 0 : WithTop α))
    ∧ ((bestLast d n dp).1 = ⊤
      ∨ ∃ i, 1 ≤ i ∧ i < n ∧ (bestLast d n dp).2 = some i
          ∧ (bestLast d n dp).1 = dp (2 ^ n - 1) i + (d i 0 : WithTop α)) := by
  unfold bestLast
  obtain ⟨hb, hc⟩ := bestLast_aux d n dp (n - 1)
  constructor
  · intro i h1 h2
    exact hb i h1 (by omega)
  · rcases hc with h | ⟨i, hi1, hi2, hi3, hi4⟩
    · left
      rw [h]
    · right
      exact ⟨i, hi1, by omega, hi3, hi4⟩

/-! ### Characterization of the relaxation loops -/

theorem relaxStep_skip (d : Nat → Nat → α) (m u : Nat) (s : DPState α) (v : Nat)
    (h : m.testBit v = true) : relaxStep d m u s v = s := by
  unfold relaxStep
  rw [if_pos h]

theorem relaxStep_dp_frame (d : Nat → Nat → α) (m u : Nat) (s : DPState α)
    (v M w : Nat) (hne : ¬(M = m ||| 2 ^ v ∧ w = v)) :
    (relaxStep d m u s v).dp M w = s.dp M w := by
  unfold relaxStep
  by_cases h : m.testBit v
  · rw [if_pos h]
  · rw [if_neg h]
    by_cases hlt : s.dp m u + (d u v : WithTop α) < s.dp (m ||| 2 ^ v) v
    · rw [if_pos hlt]
      show upd2 s.dp (m ||| 2 ^ v) v _ M w = s.dp M w
      unfold upd2
      rw [if_neg hne]
    · rw [if_neg hlt]

theorem relaxStep_parent_frame (d : Nat → Nat → α) (m u : Nat) (s : DPState α)
    (v M w : Nat) (hne : ¬(M = m ||| 2 ^ v ∧ w = v)) :
    (relaxStep d m u s v).parent M w = s.parent M w := by
  unfold relaxStep
  by_cases h : m.testBit v
  · rw [if_pos h]
  · rw [if_neg h]
    by_cases hlt : s.dp m u + (d u v : WithTop α) < s.dp (m ||| 2 ^ v) v
    · rw [if_pos hlt]
      show upd2 s.parent (m ||| 2 ^ v) v _ M w = s.parent M w
      unfold upd2
      rw [if_neg hne]
    · rw [if_neg hlt]

theorem relaxStep_dp_target (d : Nat → Nat → α) (m u : Nat) (s : DPState α)
    (v : Nat) (h : m.testBit v = false) :
    (relaxStep d m u s v).dp (m ||| 2 ^ v) v
      = min (s.dp (m ||| 2 ^ v) v) (s.dp m u + (d u v : WithTop α)) := by
  unfold relaxStep
  rw [if_neg (by simp [h])]
  by_cases hlt : s.dp m u + (d u v : WithTop α) < s.dp (m ||| 2 ^ v) v
  · rw [if_pos hlt]
    show upd2 s.dp (m ||| 2 ^ v) v _ (m ||| 2 ^ v) v = _
    unfold upd2
    rw [if_pos ⟨rfl, rfl⟩]
    exact (min_eq_right (le_of_lt hlt)).symm
  · rw [if_neg hlt]
    exact (min_eq_left (not_lt.mp hlt)).symm

theorem relaxStep_parent_target (d : Nat → Nat → α) (m u : Nat) (s : DPState α)
    (v : Nat) (h : m.testBit v = false) :
    (s.dp m u + (d u v : WithTop α) < s.dp (m ||| 2 ^ v) v →
      (relaxStep d m u s v).parent (m ||| 2 ^ v) v = some u)
    ∧ (¬ (s.dp m u + (d u v : WithTop α) < s.dp (m ||| 2 ^ v) v) →
      (relaxStep d m u s v).parent (m ||| 2 ^ v) v = s.parent (m ||| 2 ^ v) v) := by
  unfold relaxStep
  rw [if_neg (by simp [h])]
  constructor
  · intro hlt
    rw [if_pos hlt]
    show upd2 s.parent (m ||| 2 ^ v) v _ (m ||| 2 ^ v) v = _
    unfold upd2
    rw [if_pos ⟨rfl, rfl⟩]
  · intro hlt
    rw [if_neg hlt]

theorem self_ne_lor {m w : Nat} (h : m.testBit w = false) : m ≠ m ||| 2 ^ w := by
  intro he
  have := lor_two_pow_testBit_self m w
  rw [← he, h] at this
  exact absurd this (by simp)

theorem relaxStep_dp_mu (d : Nat → Nat → α) (m u : Nat) (s : DPState α) (v : Nat) :
    (relaxStep d m u s v).dp m u = s.dp m u := by
  by_cases h : m.testBit v
  · rw [relaxStep_skip d m u s v h]
  · have h' : m.testBit v = false := by
      cases hb : m.testBit v
      · rfl
      · exact absurd hb h
    exact relaxStep_dp_frame d m u s v m u
      (fun he => self_ne_lor h' he.1)

/-- What the inner `for (v)` loop does: non-target entries are untouched,
every target entry `(m ||| 2^w, w)` gets the minimum of its old value and
the candidate through `u`, with the parent recorded exactly on strict
improvement. -/
theorem relaxSteps_char (d : Nat → Nat → α) (m u : Nat) :
    ∀ (L : List Nat) (s : DPState α),
      (∀ M w, ¬(w ∈ L ∧ m.testBit w = false ∧ M = m ||| 2 ^ w) →
        (L.foldl (relaxStep d m u) s).dp M w = s.dp M w
        ∧ (L.foldl (relaxStep d m u) s).parent M w = s.parent M w)
      ∧ (∀ w, w ∈ L → m.testBit w = false →
        (L.foldl (relaxStep d m u) s).dp (m ||| 2 ^ w) w
          = min (s.dp (m ||| 2 ^ w) w) (s.dp m u + (d u w : WithTop α))
        ∧ (s.dp m u + (d u w : WithTop α) < s.dp (m ||| 2 ^ w) w →
            (L.foldl (relaxStep d m u) s).parent (m ||| 2 ^ w) w = some u)
        ∧ (¬ (s.dp m u + (d u w : WithTop α) < s.dp (m ||| 2 ^ w) w) →
            (L.foldl (relaxStep d m u) s).parent (m ||| 2 ^ w) w
              = s.parent (m ||| 2 ^ w) w)) := by
  intro L
  induction L with
  | nil =>
    intro s
    exact ⟨fun M w _ => ⟨rfl, rfl⟩, fun w hw => absurd hw (List.not_mem_nil w)⟩
  | cons v L' ih =>
    intro s
    simp only [List.foldl_cons]
    obtain ⟨ih1, ih2⟩ := ih (relaxStep d m u s v)
    have hmu : (relaxStep d m u s v).dp m u = s.dp m u := relaxStep_dp_mu d m u s v
    constructor
    · intro M w hne
      have hne' : ¬(w ∈ L' ∧ m.testBit w = false ∧ M = m ||| 2 ^ w) := by
        intro ⟨h1, h2, h3⟩
        exact hne ⟨List.mem_cons_of_mem v h1, h2, h3⟩
      obtain ⟨e1, e2⟩ := ih1 M w hne'
      by_cases hb : m.testBit v
      · rw [relaxStep_skip d m u s v hb] at e1 e2 ⊢
        exact ⟨e1, e2⟩
      · have hb' : m.testBit v = false := by
          cases hbb : m.testBit v
          · rfl
          · exact absurd hbb hb
        have hnev : ¬(M = m ||| 2 ^ v ∧ w = v) := by
          intro ⟨h1, h2⟩
          exact hne ⟨by rw [h2]; exact List.mem_cons_self v L',
            by rw [h2]; exact hb', by rw [h2]; exact h1⟩
        rw [relaxStep_dp_frame d m u s v M w hnev] at e1
        rw [relaxStep_parent_frame d m u s v M w hnev] at e2
        exact ⟨e1, e2⟩
    · intro w hw hwbit
      rcases List.mem_cons.mp hw with hwv | hwL'
      · subst hwv
        by_cases hvL' : w ∈ L'
        · obtain ⟨f1, f2, f3⟩ := ih2 w hvL' hwbit
          have ht := relaxStep_dp_target d m u s w hwbit
          have hpt := relaxStep_parent_target d m u s w hwbit
          have hmin : min ((relaxStep d m u s w).dp (m ||| 2 ^ w) w)
              ((relaxStep d m u s w).dp m u + (d u w : WithTop α))
              = min (s.dp (m ||| 2 ^ w) w) (s.dp m u + (d u w : WithTop α)) := by
            rw [hmu, ht, min_assoc, min_self]
          have hnotlt : ¬ ((relaxStep d m u s w).dp m u + (d u w : WithTop α)
              < (relaxStep d m u s w).dp (m ||| 2 ^ w) w) := by
            rw [hmu, ht]
            exact not_lt.mpr (min_le_right _ _)
          refine ⟨by rw [f1, hmin], ?_, ?_⟩
          · intro hlt
            rw [f3 hnotlt]
            exact (hpt.1 hlt)
          · intro hlt
            rw [f3 hnotlt, hpt.2 hlt]
        · have hne' : ¬(w ∈ L' ∧ m.testBit w = false ∧ (m ||| 2 ^ w) = m ||| 2 ^ w) :=
            fun ⟨h1, _, _⟩ => hvL' h1
          obtain ⟨e1, e2⟩ := ih1 (m ||| 2 ^ w) w hne'
          have ht := relaxStep_dp_target d m u s w hwbit
          have hpt := relaxStep_parent_target d m u s w hwbit
          refine ⟨by rw [e1, ht], ?_, ?_⟩
          · intro hlt
            rw [e2]
            exact hpt.1 hlt
          · intro hlt
            rw [e2]
            exact hpt.2 hlt
      · have hwv : w ≠ v ∨ True := Or.inr trivial
        by_cases hwveq : w = v
        · subst hwveq
          by_cases hvL2 : w ∈ L'
          · obtain ⟨f1, f2, f3⟩ := ih2 w hvL2 hwbit
            have ht := relaxStep_dp_target d m u s w hwbit
            have hpt := relaxStep_parent_target d m u s w hwbit
            have hmin : min ((relaxStep d m u s w).dp (m ||| 2 ^ w) w)
                ((relaxStep d m u s w).dp m u + (d u w : WithTop α))
                = min (s.dp (m ||| 2 ^ w) w) (s.dp m u + (d u w : WithTop α)) := by
              rw [hmu, ht, min_assoc, min_self]
            have hnotlt : ¬ ((relaxStep d m u s w).dp m u + (d u w : WithTop α)
                < (relaxStep d m u s w).dp (m ||| 2 ^ w) w) := by
              rw [hmu, ht]
              exact not_lt.mpr (min_le_right _ _)
            refine ⟨by rw [f1, hmin], ?_, ?_⟩
            · intro hlt
              rw [f3 hnotlt]
              exact hpt.1 hlt
            · intro hlt
              rw [f3 hnotlt, hpt.2 hlt]
          · exact absurd hwL' hvL2
        · have hnev : ¬((m ||| 2 ^ w) = m ||| 2 ^ v ∧ w = v) := fun ⟨_, h2⟩ => hwveq h2
          obtain ⟨f1, f2, f3⟩ := ih2 w hwL' hwbit
          have e1 := relaxStep_dp_frame d m u s v (m ||| 2 ^ w) w hnev
          have e2 := relaxStep_parent_frame d m u s v (m ||| 2 ^ w) w hnev
          refine ⟨by rw [f1, hmu, e1], ?_, ?_⟩
          · intro hlt
            apply f2
            rw [hmu, e1]
            exact hlt
          · intro hlt
            rw [f3 (by rw [hmu, e1]; exact hlt), e2]

theorem relaxFrom_eq_skip (d : Nat → Nat → α) (n m : Nat) (s : DPState α) (u : Nat)
    (h : ¬(m.testBit u = true ∧ s.dp m u ≠ ⊤)) : relaxFrom d n m s u = s := by
  unfold relaxFrom
  rw [if_pos (by tauto)]

theorem relaxFrom_eq_go (d : Nat → Nat → α) (n m : Nat) (s : DPState α) (u : Nat)
    (h1 : m.testBit u = true) (h2 : s.dp m u ≠ ⊤) :
    relaxFrom d n m s u = (List.range n).foldl (relaxStep d m u) s := by
  unfold relaxFrom
  rw [if_neg (by rw [not_or]; exact ⟨fun hn => hn h1, h2⟩)]

/-- What processing one mask `m` (the whole `for (u)` loop) does to the
tables: non-target entries are untouched; each target entry accumulates the
minimum over all usable `u` of the candidate cost through `u`; and each
target entry is either untouched or records a parent `u` realizing its new
value. -/
theorem processMaskAux_char (d : Nat → Nat → α) (n m : Nat) :
    ∀ (U : List Nat) (s : DPState α),
      (∀ M w, ¬(w < n ∧ m.testBit w = false ∧ M = m ||| 2 ^ w) →
        (U.foldl (relaxFrom d n m) s).dp M w = s.dp M w
        ∧ (U.foldl (relaxFrom d n m) s).parent M w = s.parent M w)
      ∧ (∀ w, w < n → m.testBit w = false →
        (U.foldl (relaxFrom d n m) s).dp (m ||| 2 ^ w) w
          = U.foldl (fun acc u => if m.testBit u = true ∧ s.dp m u ≠ ⊤
              then min acc (s.dp m u + (d u w : WithTop α)) else acc)
              (s.dp (m ||| 2 ^ w) w)
        ∧ (((U.foldl (relaxFrom d n m) s).parent (m ||| 2 ^ w) w
              = s.parent (m ||| 2 ^ w) w
            ∧ (U.foldl (relaxFrom d n m) s).dp (m ||| 2 ^ w) w
              = s.dp (m ||| 2 ^ w) w)
          ∨ ∃ u, u ∈ U
              ∧ (U.foldl (relaxFrom d n m) s).parent (m ||| 2 ^ w) w = some u
              ∧ m.testBit u = true ∧ s.dp m u ≠ ⊤
              ∧ (U.foldl (relaxFrom d n m) s).dp (m ||| 2 ^ w) w
                = s.dp m u + (d u w : WithTop α))) := by
  intro U
  induction U with
  | nil =>
    intro s
    exact ⟨fun M w _ => ⟨rfl, rfl⟩,
      fun w _ _ => ⟨rfl, Or.inl ⟨rfl, rfl⟩⟩⟩
  | cons u0 U' ih =>
    intro s
    simp only [List.foldl_cons]
    by_cases hgo : m.testBit u0 = true ∧ s.dp m u0 ≠ ⊤
    · rw [relaxFrom_eq_go d n m s u0 hgo.1 hgo.2]
      obtain ⟨sc1, sc2⟩ := relaxSteps_char d m u0 (List.range n) s
      set s1 := (List.range n).foldl (relaxStep d m u0) s with hs1
      have hstab : ∀ x, s1.dp m x = s.dp m x := by
        intro x
        refine (sc1 m x ?_).1
        rintro ⟨_, hbit, heq⟩
        exact self_ne_lor hbit heq
      obtain ⟨ih1, ih2⟩ := ih s1
      have htrans : ∀ M w, ¬(w < n ∧ m.testBit w = false ∧ M = m ||| 2 ^ w) →
          s1.dp M w = s.dp M w ∧ s1.parent M w = s.parent M w := by
        intro M w hne
        refine sc1 M w ?_
        rintro ⟨h1, h2, h3⟩
        exact hne ⟨List.mem_range.mp h1, h2, h3⟩
      constructor
      · intro M w hne
        obtain ⟨e1, e2⟩ := ih1 M w hne
        obtain ⟨f1, f2⟩ := htrans M w hne
        exact ⟨by rw [e1, f1], by rw [e2, f2]⟩
      · intro w hw hwbit
        obtain ⟨t1, t2, t3⟩ := sc2 w (List.mem_range.mpr hw) hwbit
        obtain ⟨g1, g2⟩ := ih2 w hw hwbit
        have hcongr :
            U'.foldl (fun acc u => if m.testBit u = true ∧ s1.dp m u ≠ ⊤
                then min acc (s1.dp m u + (d u w : WithTop α)) else acc) (s1.dp (m ||| 2 ^ w) w)
              = U'.foldl (fun acc u => if m.testBit u = true ∧ s.dp m u ≠ ⊤
                then min acc (s.dp m u + (d u w : WithTop α)) else acc) (s1.dp (m ||| 2 ^ w) w) := by
          apply foldl_congr2
          intro acc x _
          rw [hstab x]
        constructor
        · rw [g1, hcongr, t1, if_pos hgo]
        · rcases g2 with ⟨p1, p2⟩ | ⟨u, huU, hp, hbit, hne, hdp⟩
          · by_cases hcond : s.dp m u0 + (d u0 w : WithTop α) < s.dp (m ||| 2 ^ w) w
            · right
              refine ⟨u0, List.mem_cons_self u0 U', ?_, hgo.1, hgo.2, ?_⟩
              · rw [p1]
                exact t2 hcond
              · rw [p2, t1]
                exact min_eq_right (le_of_lt hcond)
            · left
              refine ⟨?_, ?_⟩
              · rw [p1]
                exact t3 hcond
              · rw [p2, t1]
                exact min_eq_left (not_lt.mp hcond)
          · right
            refine ⟨u, List.mem_cons_of_mem u0 huU, hp, hbit, ?_, ?_⟩
            · rw [← hstab u]
              exact hne
            · rw [hdp, hstab u]
    · rw [relaxFrom_eq_skip d n m s u0 hgo]
      obtain ⟨ih1, ih2⟩ := ih s
      constructor
      · exact ih1
      · intro w hw hwbit
        obtain ⟨g1, g2⟩ := ih2 w hw hwbit
        constructor
        · rw [g1, if_neg hgo]
        · rcases g2 with h | ⟨u, huU, hrest⟩
          · exact Or.inl h
          · exact Or.inr ⟨u, List.mem_cons_of_mem u0 huU, hrest⟩

theorem dpInit_two_pow (u : Nat) :
    (dpInit : DPState α).dp (2 ^ u) u = if u = 0 then ((0 : α) : WithTop α) else ⊤ := by
  show (if 2 ^ u = 1 ∧ u = 0 then _ else ⊤) = _
  by_cases h : u = 0
  · subst h
    rw [if_pos ⟨by norm_num, rfl⟩, if_pos rfl]
  · rw [if_neg (fun hc => h hc.2), if_neg h]

theorem optA_two_pow (d : Nat → Nat → α) (n u : Nat) (hu : u < n) :
    optA d n n (2 ^ u) u = if u = 0 then ((0 : α) : WithTop α) else ⊤ := by
  obtain ⟨n', rfl⟩ : ∃ n', n = n' + 1 := ⟨n - 1, by omega⟩
  rw [optA_succ_base d (n' + 1) n' Nat.testBit_two_pow_self (Nat.xor_self _)]

theorem dpInit_target_top (n m w : Nat) (hm1 : 1 ≤ m) (hbit : m.testBit w = false) :
    (dpInit : DPState α).dp (m ||| 2 ^ w) w = ⊤ := by
  show (if m ||| 2 ^ w = 1 ∧ w = 0 then _ else ⊤) = ⊤
  rw [if_neg]
  rintro ⟨h1, h2⟩
  subst h2
  have hm0 : m = 0 := by
    apply Nat.eq_of_testBit_eq
    intro i
    rw [Nat.zero_testBit]
    by_cases hi : i = 0
    · subst hi
      exact hbit
    · have hbits : (m ||| 2 ^ 0).testBit i = Nat.testBit 1 i := by rw [h1]
      rw [Nat.testBit_lor] at hbits
      have h1i : Nat.testBit 1 i = false := by
        have : (2 ^ 0).testBit i = false := Nat.testBit_two_pow_of_ne (fun he => hi he.symm)
        simpa using this
      rw [h1i] at hbits
      cases hmi : m.testBit i
      · rfl
      · rw [hmi] at hbits
        simp at hbits
  omega

/-- The exact Bellman value of a relaxation target, as a fold over all
candidate predecessors. -/
theorem optA_target (d : Nat → Nat → α) (n m w : Nat) (hm1 : 1 ≤ m)
    (hmn : m < 2 ^ n) (hw : w < n) (hbit : m.testBit w = false) :
    optA d n n (m ||| 2 ^ w) w
      = (List.range n).foldl
          (fun acc u => if m.testBit u = true
            then min acc (optA d n n m u + (d u w : WithTop α)) else acc) ⊤ := by
  obtain ⟨n', rfl⟩ : ∃ n', n = n' + 1 := ⟨n - 1, by omega⟩
  have hTbit : (m ||| 2 ^ w).testBit w = true := lor_two_pow_testBit_self m w
  have hTx : (m ||| 2 ^ w) ^^^ 2 ^ w = m := lor_xor_cancel hbit
  rw [optA_succ_step d (n' + 1) n' hTbit (by rw [hTx]; omega), hTx,
    ← foldl_if_eq_filter (fun u => m.testBit u) _ (List.range (n' + 1)) ⊤]
  apply foldl_congr2
  intro acc u _
  by_cases hb : m.testBit u
  · rw [if_pos hb, if_pos hb,
      optA_fuel_eq d (n' + 1) m hmn n' (n' + 1) u
        (by have := bitCnt_le_of_unset hw hbit; omega) (bitCnt_le (n' + 1) m)]
  · rw [if_neg hb, if_neg hb]

/-- A `dp` entry of an already-processed mask holds the Bellman value. -/
theorem dp_entry_eq_optA (d : Nat → Nat → α) {n j : Nat} {S : DPState α}
    (hinv : DPInv d n j S) (m u : Nat) (hm1 : 1 ≤ m) (hmj : m ≤ j + 1)
    (hmn : m < 2 ^ n) (hu : u < n) (hbit : m.testBit u = true) :
    S.dp m u = optA d n n m u := by
  by_cases hone : m ^^^ 2 ^ u = 0
  · have hm2 : m = 2 ^ u := Nat.xor_eq_zero.mp hone
    have he := (hinv.1 m u hmn hu).2 (by rintro ⟨_, h1, _⟩; omega)
    rw [he, hm2, dpInit_two_pow, optA_two_pow d n u hu]
  · have hlt : m ^^^ 2 ^ u < m := xor_two_pow_lt hbit
    exact (hinv.1 m u hmn hu).1 ⟨hbit, by omega, by omega⟩

/-- The outer mask loop maintains `DPInv`. -/
theorem dpLoop_inv (d : Nat → Nat → α) (n : Nat) :
    ∀ j, j ≤ 2 ^ n - 1 →
      DPInv d n j ((List.range' 1 j).foldl (processMask d n) dpInit) := by
  intro j
  induction j with
  | zero =>
    intro _
    refine ⟨?_, ?_, ?_⟩
    · intro M v _ _
      constructor
      · rintro ⟨_, h1, h2⟩
        omega
      · intro _
        rfl
    · intro M v u h
      exact absurd h (by simp [dpInit])
    · intro M v _ _ _ h1 h2 _
      omega
  | succ j ih =>
    intro hj1
    have ih' := ih (by omega)
    set S := (List.range' 1 j).foldl (processMask d n) (dpInit : DPState α) with hS
    set m := 1 + j with hmdef
    have hm1 : 1 ≤ m := by omega
    have hmn : m < 2 ^ n := by
      have h2n : 1 ≤ 2 ^ n := Nat.one_le_two_pow
      omega
    have hconcat : List.range' 1 (j + 1) = List.range' 1 j ++ [m] := by
      rw [List.range'_concat]
      simp [hmdef]
    rw [hconcat, List.foldl_append]
    simp only [List.foldl_cons, List.foldl_nil]
    show DPInv d n (j + 1) (processMask d n S m)
    obtain ⟨pc1, pc2⟩ := processMaskAux_char d n m (List.range n) S
    have hPM : processMask d n S m = (List.range n).foldl (relaxFrom d n m) S := rfl
    rw [hPM]
    set T := (List.range n).foldl (relaxFrom d n m) S with hT
    have hinv0 := ih'
    obtain ⟨hA, hB, hC⟩ := ih'
    -- the value of a freshly processed target entry
    have htargetdp : ∀ w, w < n → m.testBit w = false →
        T.dp (m ||| 2 ^ w) w = optA d n n (m ||| 2 ^ w) w := by
      intro w hw hbit
      have hinit : S.dp (m ||| 2 ^ w) w = ⊤ := by
        have hTb : (m ||| 2 ^ w).testBit w = true := lor_two_pow_testBit_self m w
        have hTx : (m ||| 2 ^ w) ^^^ 2 ^ w = m := lor_xor_cancel hbit
        have he := (hA (m ||| 2 ^ w) w (lor_two_pow_lt_two_pow hmn hw) hw).2
          (by rintro ⟨_, _, h3⟩; rw [hTx] at h3; omega)
        rw [he]
        exact dpInit_target_top n m w hm1 hbit
      rw [(pc2 w hw hbit).1, hinit, optA_target d n m w hm1 hmn hw hbit]
      apply foldl_congr2
      intro acc u hu
      have hun : u < n := List.mem_range.mp hu
      by_cases hb : m.testBit u
      · have hval : S.dp m u = optA d n n m u :=
          dp_entry_eq_optA d hinv0 m u hm1 (by omega) hmn hun hb
        by_cases htop : S.dp m u = ⊤
        · rw [if_neg (fun hc => hc.2 htop), if_pos hb, ← hval, htop,
            WithTop.top_add, min_eq_left le_top]
        · rw [if_pos ⟨hb, htop⟩, if_pos hb, hval]
      · rw [if_neg (fun hc => hb hc.1), if_neg hb]
    refine ⟨?_, ?_, ?_⟩
    · -- part (A)
      intro M v hM hv
      constructor
      · rintro ⟨hbit, hge1, hle⟩
        by_cases hcase : M ^^^ 2 ^ v ≤ j
        · have hnt : ¬(v < n ∧ m.testBit v = false ∧ M = m ||| 2 ^ v) := by
            rintro ⟨_, hmb, hMe⟩
            have : M ^^^ 2 ^ v = m := by rw [hMe, lor_xor_cancel hmb]
            omega
          rw [(pc1 M v hnt).1]
          exact (hA M v hM hv).1 ⟨hbit, hge1, hcase⟩
        · have hmv : M ^^^ 2 ^ v = m := by omega
          have hmb : m.testBit v = false := by
            rw [← hmv]
            exact xor_two_pow_testBit_self M v hbit
          have hMe : M = m ||| 2 ^ v := by
            rw [← hmv]
            exact (xor_lor_cancel hbit).symm
          rw [hMe]
          exact htargetdp v hv hmb
      · intro hnc
        have hnt : ¬(v < n ∧ m.testBit v = false ∧ M = m ||| 2 ^ v) := by
          rintro ⟨_, hmb, hMe⟩
          apply hnc
          refine ⟨by rw [hMe]; exact lor_two_pow_testBit_self m v, ?_, ?_⟩
          · rw [hMe, lor_xor_cancel hmb]
            omega
          · rw [hMe, lor_xor_cancel hmb]
            omega
        rw [(pc1 M v hnt).1]
        refine (hA M v hM hv).2 ?_
        rintro ⟨h1, h2, h3⟩
        exact hnc ⟨h1, h2, by omega⟩
    · -- part (B)
      intro M v u hp
      by_cases htarget : v < n ∧ m.testBit v = false ∧ M = m ||| 2 ^ v
      · obtain ⟨hv, hmb, hMe⟩ := htarget
        have hTx : M ^^^ 2 ^ v = m := by rw [hMe, lor_xor_cancel hmb]
        rcases (pc2 v hv hmb).2 with ⟨p1, _⟩ | ⟨u0, hu0, hpar, hbit0, hne0, hdp0⟩
        · rw [hMe] at hp
          rw [p1] at hp
          obtain ⟨_, _, _, _, _, _, hle, _, _⟩ := hB M v u (by rw [hMe]; exact hp)
          rw [hTx] at hle
          omega
        · rw [hMe] at hp
          rw [hpar] at hp
          obtain rfl : u = u0 := (Option.some.inj hp).symm
          have hstab : T.dp m u = S.dp m u := by
            refine (pc1 m u ?_).1
            rintro ⟨_, hmb2, hme2⟩
            exact self_ne_lor hmb2 hme2
          refine ⟨hv, List.mem_range.mp hu0, by rw [hMe]; exact lor_two_pow_lt_two_pow hmn hv,
            by rw [hMe]; exact lor_two_pow_testBit_self m v, by rw [hTx]; exact hbit0,
            by rw [hTx]; omega, by rw [hTx]; omega, ?_, ?_⟩
          · rw [hTx, hMe, hdp0, hstab]
          · rw [hTx, hstab]
            exact hne0
      · have hf := pc1 M v htarget
        rw [hf.2] at hp
        obtain ⟨c1, c2, c3, c4, c5, c6, c7, c8, c9⟩ := hB M v u hp
        have hsrc : ¬(u < n ∧ m.testBit u = false ∧ M ^^^ 2 ^ v = m ||| 2 ^ u) := by
          rintro ⟨_, _, hme⟩
          have : (M ^^^ 2 ^ v) ^^^ 2 ^ u < M ^^^ 2 ^ v := xor_two_pow_lt c5
          rw [hme, lor_xor_cancel (by assumption)] at this
          omega
        have hsrc' := pc1 (M ^^^ 2 ^ v) u hsrc
        exact ⟨c1, c2, c3, c4, c5, c6, by omega,
          by rw [hf.1, hsrc'.1]; exact c8, by rw [hsrc'.1]; exact c9⟩
    · -- part (C)
      intro M v hM hv hbit hge1 hle htop
      by_cases hcase : M ^^^ 2 ^ v ≤ j
      · have hnt : ¬(v < n ∧ m.testBit v = false ∧ M = m ||| 2 ^ v) := by
          rintro ⟨_, hmb, hMe⟩
          have : M ^^^ 2 ^ v = m := by rw [hMe, lor_xor_cancel hmb]
          omega
        obtain ⟨f1, f2⟩ := pc1 M v hnt
        rw [f1] at htop
        obtain ⟨u, hu⟩ := hC M v hM hv hbit hge1 hcase htop
        exact ⟨u, by rw [f2]; exact hu⟩
      · have hmv : M ^^^ 2 ^ v = m := by omega
        have hmb : m.testBit v = false := by
          rw [← hmv]
          exact xor_two_pow_testBit_self M v hbit
        have hMe : M = m ||| 2 ^ v := by
          rw [← hmv]
          exact (xor_lor_cancel hbit).symm
        rcases (pc2 v hv hmb).2 with ⟨p1, p2⟩ | ⟨u0, _, hpar, _, _, _⟩
        · exfalso
          have hinit : S.dp (m ||| 2 ^ v) v = ⊤ := by
            have he := (hA (m ||| 2 ^ v) v (lor_two_pow_lt_two_pow hmn hv) hv).2
              (by rintro ⟨_, _, h3⟩; rw [lor_xor_cancel hmb] at h3; omega)
            rw [he]
            exact dpInit_target_top n m v hm1 hmb
          rw [hMe, p2, hinit] at htop
          exact htop rfl
        · exact ⟨u0, by rw [hMe]; exact hpar⟩

theorem optA_unset (d : Nat → Nat → α) (n f : Nat) {M v : Nat}
    (hbit : M.testBit v = false) : optA d n f M v = ⊤ := by
  cases f with
  | zero => rfl
  | succ f' => exact optA_succ_unset d n f' hbit

theorem dpLoop_final (d : Nat → Nat → α) (n : Nat) :
    DPInv d n (2 ^ n - 1) (dpLoop d n) := by
  unfold dpLoop
  exact dpLoop_inv d n (2 ^ n - 1) (le_refl _)

/-- After the loop, every in-range `dp` entry holds the Bellman value. -/
theorem dpLoop_dp_eq (d : Nat → Nat → α) (n : Nat) :
    ∀ M v, M < 2 ^ n → v < n → (dpLoop d n).dp M v = optA d n n M v := by
  intro M v hM hv
  have hinv := dpLoop_final d n
  cases hbit : M.testBit v with
  | false =>
    have he := (hinv.1 M v hM hv).2
      (by rintro ⟨h1, _, _⟩; rw [hbit] at h1; exact absurd h1 (by simp))
    rw [he, optA_unset d n n hbit]
    show (if M = 1 ∧ v = 0 then _ else ⊤) = ⊤
    rw [if_neg]
    rintro ⟨h1, h2⟩
    subst h1
    subst h2
    have h10 : Nat.testBit 1 0 = true := by decide
    rw [h10] at hbit
    exact absurd hbit (by simp)
  | true =>
    have hM1 : 1 ≤ M := by
      by_contra h0
      have : M = 0 := by omega
      subst this
      rw [Nat.zero_testBit] at hbit
      exact absurd hbit (by simp)
    have h2n : 1 ≤ 2 ^ n := Nat.one_le_two_pow
    exact dp_entry_eq_optA d hinv M v hM1 (by omega) hM hv hbit

/-- Reconstruction correctness: from any finite table entry `(M, v)`, the
parent chain produces (in reverse) a Hamiltonian path on `M` from 0 to `v`
whose cost is exactly the entry's value. -/
theorem reconstruct_path (d : Nat → Nat → α) (n : Nat) :
    ∀ M, M < 2 ^ n → ∀ v fuel, v < n → bitCnt n M ≤ fuel →
      (dpLoop d n).dp M v ≠ ⊤ →
      isPath n M (reconstructAux (dpLoop d n).parent fuel (some v) M).reverse
      ∧ (reconstructAux (dpLoop d n).parent fuel (some v) M).reverse.getLast?
          = some v
      ∧ (∃ c : α, pathCost d (reconstructAux (dpLoop d n).parent fuel (some v) M).reverse = c
          ∧ (c : WithTop α) = (dpLoop d n).dp M v) := by
  intro M
  induction M using Nat.strong_induction_on with
  | _ M ih =>
    intro hM v fuel hv hfuel htop
    have hinv := dpLoop_final d n
    have hbit : M.testBit v = true := by
      by_contra hb
      have hb' : M.testBit v = false := by
        cases hx : M.testBit v
        · rfl
        · exact absurd hx hb
      rw [dpLoop_dp_eq d n M v hM hv, optA_unset d n n hb'] at htop
      exact htop rfl
    have hfpos : 1 ≤ fuel := le_trans (bitCnt_pos hv hbit) hfuel
    obtain ⟨f', rfl⟩ : ∃ f', fuel = f' + 1 := ⟨fuel - 1, by omega⟩
    by_cases hone : M ^^^ 2 ^ v = 0
    · have hm2 : M = 2 ^ v := Nat.xor_eq_zero.mp hone
      have hval : (dpLoop d n).dp M v = optA d n n M v := dpLoop_dp_eq d n M v hM hv
      have hv0 : v = 0 := by
        by_contra hv0
        rw [hval, hm2, optA_two_pow d n v hv, if_neg hv0] at htop
        exact htop rfl
      subst hv0
      have hpar : (dpLoop d n).parent M 0 = none := by
        cases hp : (dpLoop d n).parent M 0 with
        | none => rfl
        | some u =>
          obtain ⟨_, _, _, _, hbu, _, _, _, _⟩ := hinv.2.1 M 0 u hp
          rw [hone, Nat.zero_testBit] at hbu
          exact absurd hbu (by simp)
      have hrest : reconstructAux (dpLoop d n).parent f' none (M ^^^ 2 ^ 0) = [] := by
        cases f' with
        | zero => rfl
        | succ _ => rfl
      have hrec : reconstructAux (dpLoop d n).parent (f' + 1) (some 0) M = [0] := by
        rw [reconstructAux, hpar, hrest]
      rw [hrec]
      refine ⟨⟨by simp, rfl, by simp, ?_⟩, rfl, ?_⟩
      · intro x
        simp only [List.reverse_singleton, List.mem_singleton]
        constructor
        · intro hx
          subst hx
          exact ⟨hv, hbit⟩
        · rintro ⟨_, hxbit⟩
          rw [hm2, Nat.testBit_two_pow] at hxbit
          have := of_decide_eq_true hxbit
          omega
      · refine ⟨0, rfl, ?_⟩
        rw [hval, hm2, optA_two_pow d n 0 hv, if_pos rfl]
    · have hge1 : 1 ≤ M ^^^ 2 ^ v := Nat.pos_of_ne_zero hone
      have hle : M ^^^ 2 ^ v ≤ 2 ^ n - 1 := by
        have h1 := xor_two_pow_lt hbit
        omega
      obtain ⟨u, hu⟩ := hinv.2.2 M v hM hv hbit hge1 hle htop
      obtain ⟨_, hun, _, _, hbu, _, _, heq, hne⟩ := hinv.2.1 M v u hu
      have hMlt : M ^^^ 2 ^ v < M := xor_two_pow_lt hbit
      have hM' : M ^^^ 2 ^ v < 2 ^ n := lt_trans hMlt hM
      have hcnt : bitCnt n (M ^^^ 2 ^ v) = bitCnt n M - 1 := bitCnt_xor hv hbit
      have hfuel' : bitCnt n (M ^^^ 2 ^ v) ≤ f' := by
        have := bitCnt_pos hv hbit
        omega
      obtain ⟨hpath', hlast', c', hc'1, hc'2⟩ := ih (M ^^^ 2 ^ v) hMlt hM' u f' hun hfuel' hne
      have hrec : reconstructAux (dpLoop d n).parent (f' + 1) (some v) M
          = v :: reconstructAux (dpLoop d n).parent f' (some u) (M ^^^ 2 ^ v) := by
        rw [reconstructAux, hu]
      rw [hrec]
      set p' := reconstructAux (dpLoop d n).parent f' (some u) (M ^^^ 2 ^ v) with hp'
      have hrev : (v :: p').reverse = p'.reverse ++ [v] := by simp
      rw [hrev]
      obtain ⟨hne', hhead', hnodup', hmem'⟩ := hpath'
      have hvnotin : v ∉ p'.reverse := by
        intro hvin
        have hvb := ((hmem' v).mp hvin).2
        rw [xor_two_pow_testBit_self M v hbit] at hvb
        exact absurd hvb (by simp)
      refine ⟨⟨by simp, ?_, ?_, ?_⟩, ?_, ?_⟩
      · rw [headD_append_singleton _ v hne']
        exact hhead'
      · rw [List.nodup_append]
        refine ⟨hnodup', List.nodup_singleton v, ?_⟩
        intro x hx hxv
        rw [List.mem_singleton] at hxv
        subst hxv
        exact hvnotin hx
      · intro x
        rw [List.mem_append, List.mem_singleton]
        constructor
        · rintro (hx | hx)
          · obtain ⟨h1, h2⟩ := (hmem' x).mp hx
            have hxv : x ≠ v := fun he => hvnotin (he ▸ hx)
            rw [xor_two_pow_testBit_ne M v x hxv] at h2
            exact ⟨h1, h2⟩
          · subst hx
            exact ⟨hv, hbit⟩
        · rintro ⟨h1, h2⟩
          by_cases hxv : x = v
          · exact Or.inr hxv
          · refine Or.inl ((hmem' x).mpr ⟨h1, ?_⟩)
            rw [xor_two_pow_testBit_ne M v x hxv]
            exact h2
      · exact List.getLast?_concat _
      · have hgl : p'.reverse.getLast hne' = u := by
          rw [List.getLast?_eq_getLast p'.reverse hne'] at hlast'
          exact Option.some.inj hlast'
        refine ⟨c' + d u v, ?_, ?_⟩
        · rw [pathCost_append_singleton d p'.reverse hne' v, hc'1, hgl]
        · rw [WithTop.coe_add, hc'2, heq]

/-- Main correctness of the exact solver: for `2 ≤ n ≤ 15` it returns a
permutation route whose cyclic distance is minimal among all permutation
routes. -/
theorem dynamicProgramming_correct (d : Nat → Nat → α) (n : Nat)
    (h2 : 2 ≤ n) (h15 : n ≤ 15) :
    ∃ r, dynamicProgramming d n = some r
      ∧ r.Perm (List.range n)
      ∧ ∀ p, p.Perm (List.range n) →
          calculateRouteDistance d r ≤ calculateRouteDistance d p := by
  have hn1 : 1 ≤ n := by omega
  have h2n : 1 ≤ 2 ^ n := Nat.one_le_two_pow
  have hfull_lt : 2 ^ n - 1 < 2 ^ n := by omega
  have hfinite : (dpLoop d n).dp (2 ^ n - 1) (n - 1) ≠ ⊤ := by
    rw [dpLoop_dp_eq d n (2 ^ n - 1) (n - 1) hfull_lt (by omega)]
    have hle := optA_le_pathCost d n (2 ^ n - 1) hfull_lt (List.range n) (n - 1) n
      (by rw [bitCnt_ones]) (isPath_range n hn1) (getLast?_range n hn1)
    intro hT
    rw [hT] at hle
    rw [top_le_iff] at hle
    exact WithTop.coe_ne_top hle
  obtain ⟨hbL, hbC⟩ := bestLast_spec d n (dpLoop d n).dp
  have hblne : (bestLast d n (dpLoop d n).dp).1 ≠ ⊤ := by
    intro hT
    have h1 := hbL (n - 1) (by omega) (by omega)
    rw [hT, top_le_iff] at h1
    rcases WithTop.add_eq_top.mp h1 with h | h
    · exact hfinite h
    · exact WithTop.coe_ne_top h
  rcases hbC with hT | ⟨i, hi1, hi2, hlast, hval⟩
  · exact absurd hT hblne
  have hdpfi : (dpLoop d n).dp (2 ^ n - 1) i ≠ ⊤ := by
    intro hT
    rw [hT, WithTop.top_add] at hval
    exact hblne hval
  obtain ⟨hpath, hlastv, c, hc1, hc2⟩ := reconstruct_path d n (2 ^ n - 1) hfull_lt i
    (n + 1) (by omega) (by rw [bitCnt_ones]; omega) hdpfi
  set r := (reconstructAux (dpLoop d n).parent (n + 1) (some i) (2 ^ n - 1)).reverse
    with hr
  have hdpn : dynamicProgramming d n = some r := by
    unfold dynamicProgramming
    rw [if_neg (by omega)]
    show some ((reconstructAux (dpLoop d n).parent (n + 1)
      (bestLast d n (dpLoop d n).dp).2 (2 ^ n - 1)).reverse) = some r
    rw [hlast]
  obtain ⟨hrne, hrhead, hrnodup, hrmem⟩ := hpath
  have hperm : r.Perm (List.range n) := by
    rw [List.perm_ext_iff_of_nodup hrnodup (List.nodup_range n)]
    intro a
    rw [List.mem_range, hrmem a, Nat.testBit_two_pow_sub_one]
    constructor
    · rintro ⟨h, _⟩
      exact h
    · intro h
      exact ⟨h, decide_eq_true h⟩
  refine ⟨r, hdpn, hperm, ?_⟩
  intro p hp
  have hrlast : r.getLast hrne = i := by
    rw [List.getLast?_eq_getLast r hrne] at hlastv
    exact Option.some.inj hlastv
  have hcalc_r : calculateRouteDistance d r = c + d i 0 := by
    rw [calculateRouteDistance_eq_pathCost d r hrne, hc1, hrlast, hrhead]
  have hbl_eq : (bestLast d n (dpLoop d n).dp).1
      = ((calculateRouteDistance d r : α) : WithTop α) := by
    rw [hval, ← hc2, hcalc_r, WithTop.coe_add]
  have h0p : (0 : Nat) ∈ p := hp.mem_iff.mpr (List.mem_range.mpr (by omega))
  obtain ⟨A, B, hAB⟩ := List.mem_iff_append.mp h0p
  have hrot : calculateRouteDistance d p
      = calculateRouteDistance d ((0 :: B) ++ A) := by
    rw [hAB]
    exact calculateRouteDistance_rotate d A (0 :: B)
  have hqperm : (0 :: (B ++ A) : List Nat).Perm (List.range n) := by
    have h1 : ((0 :: B) ++ A : List Nat).Perm p := by
      rw [hAB]
      exact List.perm_append_comm
    exact h1.trans hp
  have hqne : (0 :: (B ++ A) : List Nat) ≠ [] := by simp
  have hqnodup : (0 :: (B ++ A) : List Nat).Nodup :=
    hqperm.nodup_iff.mpr (List.nodup_range n)
  have hqpath : isPath n (2 ^ n - 1) (0 :: (B ++ A)) := by
    refine ⟨hqne, rfl, hqnodup, ?_⟩
    intro x
    rw [hqperm.mem_iff, List.mem_range, Nat.testBit_two_pow_sub_one]
    constructor
    · intro h
      exact ⟨h, decide_eq_true h⟩
    · rintro ⟨h, _⟩
      exact h
  have hw := List.getLast?_eq_getLast (0 :: (B ++ A) : List Nat) hqne
  set w := (0 :: (B ++ A) : List Nat).getLast hqne with hwdef
  have hwmem : w ∈ (0 :: (B ++ A) : List Nat) := List.getLast_mem hqne
  have hwn : w < n := by
    have hm := hqperm.mem_iff.mp hwmem
    exact List.mem_range.mp hm
  have hBA : (B ++ A : List Nat) ≠ [] := by
    intro h
    have hlen := hqperm.length_eq
    rw [h, List.length_range] at hlen
    simp at hlen
    omega
  have hw0 : w ≠ 0 := by
    have hwlast2 : (0 :: (B ++ A) : List Nat).getLast hqne
        = (B ++ A).getLast hBA := List.getLast_cons hBA
    have hwBA : w ∈ (B ++ A : List Nat) := by
      rw [hwdef, hwlast2]
      exact List.getLast_mem hBA
    have hnd : (0 : Nat) ∉ (B ++ A : List Nat) := (List.nodup_cons.mp hqnodup).1
    intro he
    rw [he] at hwBA
    exact hnd hwBA
  have hqcost : calculateRouteDistance d (0 :: (B ++ A))
      = pathCost d (0 :: (B ++ A)) + d w 0 := by
    rw [calculateRouteDistance_eq_pathCost d (0 :: (B ++ A)) hqne, ← hwdef]
    rfl
  have hoptle : optA d n n (2 ^ n - 1) w ≤ ↑(pathCost d (0 :: (B ++ A))) :=
    optA_le_pathCost d n (2 ^ n - 1) hfull_lt (0 :: (B ++ A)) w n
      (by rw [bitCnt_ones]) hqpath hw
  have hdple : (dpLoop d n).dp (2 ^ n - 1) w ≤ ↑(pathCost d (0 :: (B ++ A))) := by
    rw [dpLoop_dp_eq d n (2 ^ n - 1) w hfull_lt hwn]
    exact hoptle
  have hble := hbL w (by omega) hwn
  have hchain : ((calculateRouteDistance d r : α) : WithTop α)
      ≤ ((calculateRouteDistance d (0 :: (B ++ A)) : α) : WithTop α) := by
    rw [← hbl_eq, hqcost, WithTop.coe_add]
    exact le_trans hble (add_le_add_right hdple _)
  rw [hrot]
  show calculateRouteDistance d r ≤ calculateRouteDistance d (0 :: (B ++ A))
  exact WithTop.coe_le_coe.mp hchain

theorem foldr_min_le {l : List α} {x : α} (hx : x ∈ l) (init : α) :
    l.foldr min init ≤ x := by
  induction l with
  | nil => exact absurd hx (List.not_mem_nil x)
  | cons a t ih =>
    rcases List.mem_cons.mp hx with h | h
    · subst h
      exact min_le_left _ _
    · exact le_trans (min_le_right _ _) (ih h)

theorem foldr_min_mem (l : List α) (init : α) :
    l.foldr min init = init ∨ l.foldr min init ∈ l := by
  induction l with
  | nil => exact Or.inl rfl
  | cons a t ih =>
    simp only [List.foldr_cons]
    rcases le_total a (t.foldr min init) with h | h
    · rw [min_eq_left h]
      exact Or.inr (List.mem_cons_self a t)
    · rw [min_eq_right h]
      rcases ih with h1 | h1
      · exact Or.inl h1
      · exact Or.inr (List.mem_cons_of_mem a h1)

end Generic

/-! ### Claim theorems on concrete city lists -/

/-- C4: `calculateRouteDistance` sums the Euclidean distances between
consecutive route entries and closes the cycle from the last entry back to
the first. -/
theorem calculateRouteDistance_euclid (cities : List City) (route : List Nat)
    (hne : route ≠ []) (hvalid : ∀ x ∈ route, x < cities.length) :
    calculateRouteDistance (calculateDistanceMatrix cities) route
      = ((route.zip route.tail).map
          (fun p => euclidDist (cities.getD p.1 default) (cities.getD p.2 default))).sum
        + euclidDist (cities.getD (route.getLast hne) default)
            (cities.getD (route.headD 0) default) := by
  rw [calculateRouteDistance_eq_pathCost _ route hne, pathCost_eq_zipSum]
  simp only [calculateDistanceMatrix_eq]

/-- C4 witness. -/
theorem calculateRouteDistance_euclid_witness :
    (([0, 1, 2] : List Nat) ≠ [] ∧ ∀ x ∈ ([0, 1, 2] : List Nat), x < cities3.length)
    ∧ calculateRouteDistance (calculateDistanceMatrix cities3) [0, 1, 2]
      = ((([0, 1, 2] : List Nat).zip ([0, 1, 2] : List Nat).tail).map
          (fun p => euclidDist (cities3.getD p.1 default) (cities3.getD p.2 default))).sum
        + euclidDist (cities3.getD (([0, 1, 2] : List Nat).getLast (by simp)) default)
            (cities3.getD (([0, 1, 2] : List Nat).headD 0) default) :=
  ⟨⟨by simp, by intro x hx; fin_cases hx <;> simp [cities3]⟩,
    calculateRouteDistance_euclid cities3 [0, 1, 2] (by simp)
      (by intro x hx; fin_cases hx <;> simp [cities3])⟩

/-- C3: 2-opt local search never increases the cyclic total distance. -/
theorem twoOpt_no_increase (cities : List City) (R : List Nat)
    (hperm : R.Perm (List.range cities.length)) :
    calculateRouteDistance (calculateDistanceMatrix cities)
        (twoOptImprovement (calculateDistanceMatrix cities) R)
      ≤ calculateRouteDistance (calculateDistanceMatrix cities) R :=
  twoOptImprovement_le _ R

/-- C3 witness. -/
theorem twoOpt_no_increase_witness :
    (List.range cities3.length).Perm (List.range cities3.length)
    ∧ calculateRouteDistance (calculateDistanceMatrix cities3)
        (twoOptImprovement (calculateDistanceMatrix cities3) (List.range cities3.length))
      ≤ calculateRouteDistance (calculateDistanceMatrix cities3) (List.range cities3.length) :=
  ⟨List.Perm.refl _, twoOpt_no_increase cities3 _ (List.Perm.refl _)⟩

/-- C6: the exact solver signals its over-capacity error exactly when the
number of cities exceeds 15, and returns a route for every `n ≤ 15`. -/
theorem dynamicProgramming_capacity (cities : List City) :
    (dynamicProgramming (calculateDistanceMatrix cities) cities.length = none
        ↔ 15 < cities.length)
    ∧ (cities.length ≤ 15 →
        ∃ r, dynamicProgramming (calculateDistanceMatrix cities) cities.length
          = some r) := by
  constructor
  · unfold dynamicProgramming
    by_cases h : cities.length > 15
    · simp [h]
    · simp [h]
  · intro h
    unfold dynamicProgramming
    rw [if_neg (by omega)]
    exact ⟨_, rfl⟩

/-- C6 witness. -/
theorem dynamicProgramming_capacity_witness :
    cities2.length ≤ 15
    ∧ ∃ r, dynamicProgramming (calculateDistanceMatrix cities2) cities2.length
        = some r :=
  ⟨by simp [cities2], (dynamicProgramming_capacity cities2).2 (by simp [cities2])⟩

theorem solveR_snd {α : Type} [LinearOrderedField α] (d : Nat → Nat → α) (n : Nat)
    (h : ¬ n < 2) :
    (solveR d n).2 = calculateRouteDistance d (solveR d n).1 := by
  unfold solveR
  rw [if_neg h]

theorem solveR_snd_small {α : Type} [LinearOrderedField α] (d : Nat → Nat → α)
    (n : Nat) (h : n < 2) : (solveR d n).2 = 0 := by
  unfold solveR
  rw [if_pos h]

/-- C8: the reported total distance is recomputed from the returned route
(for `n ≥ 2`), and is `0` for `n < 2`. -/
theorem solve_totalDistance (cities : List City) :
    (2 ≤ cities.length →
      (solve cities).totalDistance
        = calculateRouteDistance (calculateDistanceMatrix cities) (solve cities).route)
    ∧ (cities.length < 2 → (solve cities).totalDistance = 0) := by
  constructor
  · intro h
    exact solveR_snd (calculateDistanceMatrix cities) cities.length (by omega)
  · intro h
    exact solveR_snd_small (calculateDistanceMatrix cities) cities.length h

/-- C8 witness. -/
theorem solve_totalDistance_witness :
    2 ≤ cities2.length
    ∧ (solve cities2).totalDistance
        = calculateRouteDistance (calculateDistanceMatrix cities2) (solve cities2).route :=
  ⟨by simp [cities2], (solve_totalDistance cities2).1 (by simp [cities2])⟩

/-- C10: in the exact-solver regime `2 ≤ n ≤ 10` the exact solver never
signals over-capacity (its ceiling is 15), so `solve` always returns the
exact solver's route and the heuristic fallback branch is dead code. -/
theorem solve_smallRegime_usesDP (cities : List City) (h2 : 2 ≤ cities.length)
    (h10 : cities.length ≤ 10) :
    ∃ r, dynamicProgramming (calculateDistanceMatrix cities) cities.length = some r
      ∧ (solve cities).route = r := by
  have hsome : ∃ r,
      dynamicProgramming (calculateDistanceMatrix cities) cities.length = some r := by
    unfold dynamicProgramming
    rw [if_neg (by omega)]
    exact ⟨_, rfl⟩
  obtain ⟨r, hr⟩ := hsome
  refine ⟨r, hr, ?_⟩
  show (solveR (calculateDistanceMatrix cities) cities.length).1 = r
  unfold solveR
  rw [if_neg (by omega), if_pos h10, hr]

/-- C10 witness. -/
theorem solve_smallRegime_usesDP_witness :
    (2 ≤ cities2.length ∧ cities2.length ≤ 10)
    ∧ ∃ r, dynamicProgramming (calculateDistanceMatrix cities2) cities2.length = some r
        ∧ (solve cities2).route = r :=
  ⟨⟨by simp [cities2], by simp [cities2]⟩,
    solve_smallRegime_usesDP cities2 (by simp [cities2]) (by simp [cities2])⟩

/-- C1: on every non-empty city list, `solve` returns a route that visits
every city index exactly once (and returns `[0]` when `n = 1`). -/
theorem solve_route_perm (cities : List City) (hne : cities ≠ []) :
    (solve cities).route.Perm (List.range cities.length)
    ∧ (cities.length = 1 → (solve cities).route = [0]) := by
  have hn1 : 1 ≤ cities.length := List.length_pos.mpr hne
  have hroute : (solve cities).route
      = (solveR (calculateDistanceMatrix cities) cities.length).1 := rfl
  by_cases hlt2 : cities.length < 2
  · have h1 : (solveR (calculateDistanceMatrix cities) cities.length).1 = [0] := by
      unfold solveR
      rw [if_pos hlt2]
    have hn : cities.length = 1 := by omega
    constructor
    · rw [hroute, h1, hn]
      have hr1 : List.range 1 = [0] := by decide
      rw [hr1]
    · intro _
      rw [hroute, h1]
  · refine ⟨?_, fun h => absurd h (by omega)⟩
    by_cases h10 : cities.length ≤ 10
    · obtain ⟨r, hr, hperm, _⟩ := dynamicProgramming_correct
        (calculateDistanceMatrix cities) cities.length (by omega) (by omega)
      have he : (solveR (calculateDistanceMatrix cities) cities.length).1 = r := by
        unfold solveR
        rw [if_neg hlt2, if_pos h10, hr]
      rw [hroute, he]
      exact hperm
    · have he : (solveR (calculateDistanceMatrix cities) cities.length).1
          = multiStart (calculateDistanceMatrix cities) cities.length := by
        unfold solveR
        rw [if_neg hlt2, if_neg h10]
      rw [hroute, he]
      exact multiStart_perm _ (by omega)

/-- C1 witness. -/
theorem solve_route_perm_witness :
    cities3 ≠ []
    ∧ (solve cities3).route.Perm (List.range cities3.length)
    ∧ (cities3.length = 1 → (solve cities3).route = [0]) :=
  ⟨by simp [cities3], (solve_route_perm cities3 (by simp [cities3])).1,
    (solve_route_perm cities3 (by simp [cities3])).2⟩

/-- C2: for `2 ≤ n ≤ 8` the exact solver's route attains the brute-force
minimum cyclic distance over all permutations of `[0, n)`. -/
theorem dp_matches_bruteforce (cities : List City) (h2 : 2 ≤ cities.length)
    (h8 : cities.length ≤ 8) :
    ∃ r, dynamicProgramming (calculateDistanceMatrix cities) cities.length = some r
      ∧ calculateRouteDistance (calculateDistanceMatrix cities) r
          = bruteMin (calculateDistanceMatrix cities) cities.length := by
  obtain ⟨r, hr, hperm, hopt⟩ := dynamicProgramming_correct
    (calculateDistanceMatrix cities) cities.length h2 (by omega)
  refine ⟨r, hr, le_antisymm ?_ ?_⟩
  · unfold bruteMin
    rcases foldr_min_mem
        ((List.range cities.length).permutations.map
          (calculateRouteDistance (calculateDistanceMatrix cities)))
        (calculateRouteDistance (calculateDistanceMatrix cities)
          (List.range cities.length)) with h | h
    · rw [h]
      exact hopt (List.range cities.length) (List.Perm.refl _)
    · obtain ⟨p, hpmem, hpe⟩ := List.mem_map.mp h
      rw [← hpe]
      exact hopt p (List.mem_permutations.mp hpmem)
  · unfold bruteMin
    exact foldr_min_le
      (List.mem_map_of_mem _ (List.mem_permutations.mpr hperm)) _

/-- C2 witness. -/
theorem dp_matches_bruteforce_witness :
    (2 ≤ cities2.length ∧ cities2.length ≤ 8)
    ∧ ∃ r, dynamicProgramming (calculateDistanceMatrix cities2) cities2.length
          = some r
        ∧ calculateRouteDistance (calculateDistanceMatrix cities2) r
            = bruteMin (calculateDistanceMatrix cities2) cities2.length :=
  ⟨⟨by simp [cities2], by simp [cities2]⟩,
    dp_matches_bruteforce cities2 (by simp [cities2]) (by simp [cities2])⟩

/-- C7: nearest neighbor starts at the given city and repeatedly appends
the not-yet-visited city at minimum distance from the previous one, ties
broken in favor of the lowest city index. -/
theorem nearestNeighbor_greedy (cities : List City) (s : Nat)
    (hn : 1 ≤ cities.length) (hs : s < cities.length) :
    (nearestNeighbor (calculateDistanceMatrix cities) cities.length s).length
        = cities.length
    ∧ (nearestNeighbor (calculateDistanceMatrix cities) cities.length s).headD 0 = s
    ∧ ∀ k, k + 1 < cities.length →
        NNStepSpec (calculateDistanceMatrix cities) cities.length
          (nearestNeighbor (calculateDistanceMatrix cities) cities.length s) k :=
  nearestNeighbor_greedySpec (calculateDistanceMatrix cities) hs

/-- C7 witness. -/
theorem nearestNeighbor_greedy_witness :
    (1 ≤ cities3.length ∧ 0 < cities3.length)
    ∧ (nearestNeighbor (calculateDistanceMatrix cities3) cities3.length 0).length
        = cities3.length
    ∧ (nearestNeighbor (calculateDistanceMatrix cities3) cities3.length 0).headD 0 = 0
    ∧ ∀ k, k + 1 < cities3.length →
        NNStepSpec (calculateDistanceMatrix cities3) cities3.length
          (nearestNeighbor (calculateDistanceMatrix cities3) cities3.length 0) k :=
  ⟨⟨by simp [cities3], by simp [cities3]⟩,
    nearestNeighbor_greedy cities3 0 (by simp [cities3]) (by simp [cities3])⟩

/-- C5 counterexample: on a 12-city instance the exact solver does NOT
signal a capacity-exceeded condition (12 is below its ceiling 15); in fact
`solve` never even invokes it for `n = 12` (see the amended theorem). -/
theorem twelveCities_dpDoesNotDecline :
    dynamicProgramming (calculateDistanceMatrix cities12) cities12.length ≠ none := by
  have h : cities12.length = 12 := by simp [cities12]
  rw [h]
  unfold dynamicProgramming
  rw [if_neg (by omega)]
  simp

/-- C5 amended: a 12-city instance takes the multi-start heuristic path
(`n > 10`), not the exact-solver-with-fallback path; the result is a valid
permutation tour. -/
theorem twelveCities_usesMultiStart (cities : List City) (h12 : cities.length = 12) :
    (solve cities).route = multiStart (calculateDistanceMatrix cities) 12
    ∧ (solve cities).route.Perm (List.range 12) := by
  have h1 : (solve cities).route
      = multiStart (calculateDistanceMatrix cities) cities.length := by
    show (solveR (calculateDistanceMatrix cities) cities.length).1 = _
    unfold solveR
    rw [if_neg (by omega), if_neg (by omega)]
  constructor
  · rw [h1, h12]
  · rw [h1, h12]
    exact multiStart_perm _ (by omega)

/-- C5 amended witness. -/
theorem twelveCities_usesMultiStart_witness :
    cities12.length = 12
    ∧ (solve cities12).route = multiStart (calculateDistanceMatrix cities12) 12
    ∧ (solve cities12).route.Perm (List.range 12) :=
  ⟨by simp [cities12],
    (twelveCities_usesMultiStart cities12 (by simp [cities12])).1,
    (twelveCities_usesMultiStart cities12 (by simp [cities12])).2⟩

section HeapFrame

variable {α : Type} [LinearOrderedField α]

theorem halloc_fst (h : Heap) (v : List Nat) : (halloc h v).1 = h.next := rfl

theorem halloc_next (h : Heap) (v : List Nat) :
    (halloc h v).2.next = h.next + 1 := rfl

theorem halloc_arr_lt (h : Heap) (v : List Nat) (a : Nat) (ha : a < h.next) :
    (halloc h v).2.arr a = h.arr a := by
  show (if a = h.next then v else h.arr a) = h.arr a
  rw [if_neg (by omega)]

theorem reverseSectionH_next (h : Heap) (a i j : Nat) :
    (reverseSectionH h a i j).next = h.next := rfl

theorem reverseSectionH_arr_ne (h : Heap) (a i j b : Nat) (hb : b ≠ a) :
    (reverseSectionH h a i j).arr b = h.arr b := by
  show (if b = a then _ else h.arr b) = h.arr b
  rw [if_neg hb]

/-- One candidate evaluation allocates a fresh array and writes only to it:
every store entry below the starting watermark is untouched. -/
theorem twoOptCandidateH_frame (d : Nat → Nat → α) (h0 : Heap)
    (s : TwoOptHState α) (i j : Nat)
    (h : h0.next ≤ s.heap.next ∧ ∀ a, a < h0.next → s.heap.arr a = h0.arr a) :
    h0.next ≤ (twoOptCandidateH d s i j).heap.next
    ∧ ∀ a, a < h0.next → (twoOptCandidateH d s i j).heap.arr a = h0.arr a := by
  obtain ⟨h1, h2⟩ := h
  have hkey : ∀ (h' : Heap), h' = reverseSectionH (halloc s.heap (s.heap.arr s.bestRef)).2
        (halloc s.heap (s.heap.arr s.bestRef)).1 i j →
      h0.next ≤ h'.next ∧ ∀ a, a < h0.next → h'.arr a = h0.arr a := by
    intro h' hdef
    subst hdef
    constructor
    · rw [reverseSectionH_next, halloc_next]
      omega
    · intro a ha
      rw [reverseSectionH_arr_ne _ _ _ _ _ (by rw [halloc_fst]; omega),
          halloc_arr_lt _ _ _ (by omega)]
      exact h2 a ha
  unfold twoOptCandidateH
  by_cases hadj : j - i = 1
  · simp only [if_pos hadj]
    exact ⟨h1, h2⟩
  · simp only [if_neg hadj]
    obtain ⟨g1, g2⟩ := hkey _ rfl
    by_cases himp : calculateRouteDistance d
        ((reverseSectionH (halloc s.heap (s.heap.arr s.bestRef)).2
            (halloc s.heap (s.heap.arr s.bestRef)).1 i j).arr
          (halloc s.heap (s.heap.arr s.bestRef)).1) < s.bestDistance
    · simp only [if_pos himp]
      exact ⟨g1, g2⟩
    · simp only [if_neg himp]
      exact ⟨g1, g2⟩

theorem twoOptPassH_frame (d : Nat → Nat → α) (h0 : Heap) (n : Nat)
    (s : TwoOptHState α)
    (h : h0.next ≤ s.heap.next ∧ ∀ a, a < h0.next → s.heap.arr a = h0.arr a) :
    h0.next ≤ (twoOptPassH d n s).heap.next
    ∧ ∀ a, a < h0.next → (twoOptPassH d n s).heap.arr a = h0.arr a := by
  unfold twoOptPassH
  refine foldlInv
    (P := fun s : TwoOptHState α =>
      h0.next ≤ s.heap.next ∧ ∀ a, a < h0.next → s.heap.arr a = h0.arr a)
    _ _ _ h ?_
  intro s1 i _ hs1
  refine foldlInv
    (P := fun s : TwoOptHState α =>
      h0.next ≤ s.heap.next ∧ ∀ a, a < h0.next → s.heap.arr a = h0.arr a)
    _ _ _ hs1 ?_
  intro s2 j _ hs2
  exact twoOptCandidateH_frame d h0 s2 i j hs2

theorem twoOptAuxH_frame (d : Nat → Nat → α) (h0 : Heap) (n : Nat) :
    ∀ (fuel : Nat) (s : TwoOptHState α),
      h0.next ≤ s.heap.next → (∀ a, a < h0.next → s.heap.arr a = h0.arr a) →
      h0.next ≤ (twoOptAuxH d n fuel s).heap.next
      ∧ ∀ a, a < h0.next → (twoOptAuxH d n fuel s).heap.arr a = h0.arr a := by
  intro fuel
  induction fuel with
  | zero => intro s hs1 hs2; exact ⟨hs1, hs2⟩
  | succ f ih =>
    intro s hs1 hs2
    have hp := twoOptPassH_frame d h0 n ⟨s.heap, s.bestRef, s.bestDistance, false⟩
      ⟨hs1, hs2⟩
    simp only [twoOptAuxH]
    by_cases himp :
        (twoOptPassH d n ⟨s.heap, s.bestRef, s.bestDistance, false⟩).improved
    · simp only [if_pos himp]
      exact ih _ hp.1 hp.2
    · simp only [if_neg himp]
      exact hp

/-- C9 (generic form): `twoOptImprovement` never writes to its input
array — after the call the store still holds the original route at the
input reference. -/
theorem twoOptImprovementH_frame (d : Nat → Nat → α) (h : Heap) (routeRef : Nat)
    (hr : routeRef < h.next) :
    ((twoOptImprovementH d h routeRef).2).arr routeRef = h.arr routeRef := by
  unfold twoOptImprovementH
  have h1 : h.next ≤ (halloc h (h.arr routeRef)).2.next := by
    rw [halloc_next]
    omega
  have h2 : ∀ a, a < h.next → (halloc h (h.arr routeRef)).2.arr a = h.arr a :=
    fun a ha => halloc_arr_lt h _ a ha
  exact (twoOptAuxH_frame d h ((h.arr routeRef).length)
    (Nat.factorial (h.arr routeRef).length + 1) _ h1 h2).2 routeRef hr

end HeapFrame

/-- C9: 2-opt treats its input route as read-only — every candidate
reversal is applied to a fresh copy (`[...bestRoute]`), so after
`twoOptImprovement` returns, the input array holds exactly the sequence it
held before the call. -/
theorem twoOptImprovement_no_mutation (cities : List City) (h : Heap)
    (routeRef : Nat) (hr : routeRef < h.next) :
    ((twoOptImprovementH (calculateDistanceMatrix cities) h routeRef).2).arr routeRef
      = h.arr routeRef :=
  twoOptImprovementH_frame (calculateDistanceMatrix cities) h routeRef hr

/-- C9 witness: a store holding the route `[0, 1, 2, 3]` at address 0. -/
theorem twoOptImprovement_no_mutation_witness :
    0 < (⟨fun _ => [0, 1, 2, 3], 1⟩ : Heap).next
    ∧ ((twoOptImprovementH (calculateDistanceMatrix cities3)
          ⟨fun _ => [0, 1, 2, 3], 1⟩ 0).2).arr 0
        = (⟨fun _ => [0, 1, 2, 3], 1⟩ : Heap).arr 0 :=
  ⟨Nat.one_pos,
    twoOptImprovement_no_mutation cities3 ⟨fun _ => [0, 1, 2, 3], 1⟩ 0 Nat.one_pos⟩

end TSP
